import Mathlib

/-!
Verification of the cache-update heuristic layer in `src/offline.ts`
(apollo-offline-hooks): the intent classifier `getOpTypeFromOperationName`,
the update-strategy resolver `getUpdater`, the cache-patch orchestrator
`updateCache`, and the option-augmentation entry points
`getMutationOptions` / `getSubscriptionOptions`.

JavaScript runtime values are embedded as the inductive type `JValue`
(value semantics: objects are ordered association lists of fields, arrays
are lists).  The helpers `findArrayInObject`, `getValueByPath`,
`setValueByPath` and `pick` live in `src/utils.ts`, which is not part of
the available sources; they are modelled from the specification and marked
as such in their doc comments.
-/

/-- A JavaScript runtime value.  `undefined` is JavaScript's `undefined`
(distinct from `null`); objects are ordered lists of own fields in key
enumeration order; numbers are modelled as integers (the identity values
this library compares are integer or string ids). -/
inductive JValue where
  | undefined : JValue
  | null : JValue
  | bool : Bool → JValue
  | num : Int → JValue
  | str : String → JValue
  | arr : List JValue → JValue
  | obj : List (String × JValue) → JValue
deriving Repr

/-- JavaScript strict equality `===`, as `src/offline.ts` applies it to
identity-field values: no type coercion (`num 1` never equals `str "1"`),
scalars compare by value.  On reference types (objects, arrays) `===` is
reference equality; in this value-semantic model two reference-typed
operands compare unequal, matching the data model's requirement (§3) that
identity values be scalars "comparable by equality". -/
def strictEq : JValue → JValue → Bool
  | .undefined, .undefined => true
  | .null, .null => true
  | .bool a, .bool b => a == b
  | .num a, .num b => a == b
  | .str a, .str b => a == b
  | _, _ => false

namespace JValue

/-- JavaScript truthiness of a value (`NaN` is not representable in the
integer model; every array and object is truthy). -/
def truthy : JValue → Bool
  | .undefined => false
  | .null => false
  | .bool b => b
  | .num n => n != 0
  | .str s => s != ""
  | .arr _ => true
  | .obj _ => true

/-- Property read `v[k]`: the first binding of key `k` in an object's
field list, `undefined` when the key is absent.  Non-object values have no
own string-keyed properties in this model (the Items this library reads
fields from are records). -/
def getField : JValue → String → JValue
  | .obj fields, k =>
    match fields.find? (fun p => p.1 == k) with
    | some p => p.2
    | none => .undefined
  | _, _ => .undefined

/-- The own enumerable keys of a value, as `Object.keys` lists them
(empty for non-objects in this model). -/
def ownKeys : JValue → List String
  | .obj fields => fields.map Prod.fst
  | _ => []

/-- Whether `k` is an own key of `v`. -/
def hasKey (v : JValue) (k : String) : Bool :=
  (ownKeys v).contains k

end JValue

/-- Property write `container[k] = value` on an object: overwrite the
binding in place when `k` is already a key, append the binding otherwise
(JavaScript keeps the original insertion position of an overwritten key).
On non-objects the write is modelled as a no-op; the orchestrator only
performs such writes on containers that were read as objects. -/
def setAtKey : JValue → String → JValue → JValue
  | .obj fields, k, v =>
    if fields.any (fun p => p.1 == k) then
      .obj (fields.map (fun p => if p.1 == k then (k, v) else p))
    else
      .obj (fields ++ [(k, v)])
  | other, _, _ => other

/-- One step of JavaScript object-spread accumulation: add binding
`(k, v)` to the field list `fields`, keeping the position of an existing
key and appending a new key at the end. -/
def objInsert (fields : List (String × JValue)) (k : String) (v : JValue) :
    List (String × JValue) :=
  if fields.any (fun p => p.1 == k) then
    fields.map (fun p => if p.1 == k then (k, v) else p)
  else
    fields ++ [(k, v)]

/-- JavaScript object spread `{...a, ...b}` on field lists: fold the
bindings of `b` over `a` in order. -/
def spreadFields (a b : List (String × JValue)) : List (String × JValue) :=
  b.foldl (fun acc p => objInsert acc p.1 p.2) a

/-- Modelled from the spec: `pick` from `src/utils.ts` (not among the
available sources).  §2 describes it as the helper that "projects an
object to a subset of keys" and §4.3 uses it to take "the corresponding
field from `newItem` when present".  `pick item ks` returns the bindings
`(k, item[k])` for the keys `k ∈ ks` that are own keys of `item`, in the
order of `ks`; a non-object yields no bindings. -/
def pick (item : JValue) (ks : List String) : List (String × JValue) :=
  ks.filterMap (fun k =>
    if item.hasKey k then some (k, item.getField k) else none)

/-- Model of `String.prototype.toLowerCase`, character by character (the
operation names and configured name stems are ASCII). -/
def strToLower (s : String) : String := ⟨s.data.map Char.toLower⟩

/-- Model of `String.prototype.startsWith`. -/
def strStartsWith (s p : String) : Bool := p.data.isPrefixOf s.data

/-- The `CacheOperationTypes` enumeration from `src/offline.ts`. -/
inductive CacheOperationTypes where
  | AUTO
  | ADD
  | REMOVE
  | UPDATE
deriving Repr, DecidableEq

/-- Default `prefixesForRemove` list from `src/offline.ts`. -/
def prefixesForRemove : List String :=
  ["delete", "deleted", "discard", "discarded", "erase", "erased", "remove", "removed"]

/-- Default `prefixesForUpdate` list from `src/offline.ts`. -/
def prefixesForUpdate : List String :=
  ["update", "updated", "upsert", "upserted", "edit", "edited", "modify", "modified",
   "analyze", "activate"]

/-- Default `prefixesForAdd` list from `src/offline.ts`. -/
def prefixesForAdd : List String :=
  ["create", "created", "put", "set", "add", "added", "new", "insert", "inserted",
   "duplicate", "import"]

/-- The `OfflineConfig` record from `src/offline.ts`.  Following the spec's design
note (§9), the process-wide mutable `offlineConfig` record is modelled as
an explicit configuration value passed to classification and to the
orchestrator.  `getIdFieldFromObject` may return no field name (the
documented callback is a `switch` without a default branch). -/
structure OfflineConfig where
  prefixesForRemove : List String
  prefixesForUpdate : List String
  prefixesForAdd : List String
  getIdFieldFromObject : Option (JValue → Option String)
  idField : String

/-- The initial `offlineConfig` value from `src/offline.ts`. -/
def offlineConfig : OfflineConfig where
  prefixesForRemove := prefixesForRemove
  prefixesForUpdate := prefixesForUpdate
  prefixesForAdd := prefixesForAdd
  getIdFieldFromObject := none
  idField := "id"

/-- The `comparator` closure inside `getOpTypeFromOperationName`: the
lower-cased operation name starts with the configured stem `p`, or with
`"on" ++ p` (subscription-style names such as `onCreatePost`). -/
def opNameMatches (opName : String) (p : String) : Bool :=
  strStartsWith (strToLower opName) p || strStartsWith (strToLower opName) ("on" ++ p)

/-- The classifier `getOpTypeFromOperationName` from `src/offline.ts`.  The source
iterates the rows `[(prefixesForAdd, ADD), (prefixesForRemove, REMOVE),
(prefixesForUpdate, UPDATE)]` with `Array.prototype.forEach`, assigning
`result = type` for every row whose list matches; the `return` inside the
callback exits only that callback, not the loop, so a later matching row
overwrites an earlier one.  The fold below reproduces exactly that
last-assignment-wins behaviour.  (The source's default parameter
`opName = ''` is applied at its call site in `updateCache`.) -/
def getOpTypeFromOperationName (cfg : OfflineConfig) (opName : String) :
    CacheOperationTypes :=
  let rows : List (List String × CacheOperationTypes) :=
    [(cfg.prefixesForAdd, .ADD),
     (cfg.prefixesForRemove, .REMOVE),
     (cfg.prefixesForUpdate, .UPDATE)]
  rows.foldl
    (fun result row => if row.1.any (opNameMatches opName) then row.2 else result)
    .AUTO

/-- The own field list of a value (`{...v}` spreads these; a non-object
single item contributes no string-keyed fields in this model, since the
Items of the data model are records). -/
def ownFieldsOf : JValue → List (String × JValue)
  | .obj fields => fields
  | _ => []

/-- The strategy resolver `getUpdater` from `src/offline.ts`: resolves an operation type and an
identity-field name to the patch function applied to the cached current
value and the mutated item.  The truthiness tests mirror the source's
`newItem ? _ : _` conditionals; item identity values are compared with
strict equality (`beqVal`). -/
def getUpdater (opType : CacheOperationTypes) (idField : String) :
    JValue → JValue → JValue :=
  match opType with
  | .ADD => fun currentValue newItem =>
      match currentValue with
      | .arr items =>
        if newItem.truthy then
          .arr ((items.filter
            (fun item => !strictEq (item.getField idField) (newItem.getField idField))) ++
            [newItem])
        else
          .arr items
      | _ => newItem
  | .UPDATE => fun currentValue newItem =>
      match currentValue with
      | .arr items =>
        if newItem.truthy then
          .arr (items.map
            (fun item =>
              if strictEq (item.getField idField) (newItem.getField idField) then newItem
              else item))
        else
          .arr items
      | _ =>
        .obj (spreadFields (ownFieldsOf currentValue)
          (pick newItem ((currentValue.ownKeys).filter (fun k => k != "__typename"))))
  | .REMOVE => fun currentValue newItem =>
      match currentValue with
      | .arr items =>
        if newItem.truthy then
          .arr (items.filter
            (fun item => !strictEq (item.getField idField) (newItem.getField idField)))
        else
          .arr items
      | _ => .null
  | .AUTO => fun currentValue _ => currentValue

mutual

/-- Modelled from the spec: `findArrayInObject` from `src/utils.ts` is
not among the available sources.  Spec §4.2: a deterministic depth-first
pre-order traversal over own keys in enumeration order; the first key
whose value is an array is the target and its path is returned; a nested
object is recursed into before moving to the next sibling key; a root
that is itself an array yields the distinguished root path (modelled as
`some []`); if no array is found the result is `none`. -/
def findArrayInObject : JValue → Option (List String)
  | .arr _ => some []
  | .obj fields => findArrayInFields fields
  | _ => none

/-- The field-list worker of `findArrayInObject` (spec §4.2): scan the
bindings in order; an array value ends the search, an object value is
searched depth-first before the remaining siblings. -/
def findArrayInFields : List (String × JValue) → Option (List String)
  | [] => none
  | (k, v) :: rest =>
    match v with
    | .arr _ => some [k]
    | .obj fields =>
      match findArrayInFields fields with
      | some path => some (k :: path)
      | none => findArrayInFields rest
    | _ => findArrayInFields rest

end

mutual

/-- All paths to array values reachable from a value through object
fields, enumerated in the same depth-first pre-order that spec §4.2
prescribes for the traversal.  This is the reference enumeration that
`findArrayInObject` is checked against: it must return the head of this
list. -/
def arrayPaths : JValue → List (List String)
  | .arr _ => [[]]
  | .obj fields => arrayPathsFields fields
  | _ => []

/-- Pre-order enumeration of array paths inside a field list. -/
def arrayPathsFields : List (String × JValue) → List (List String)
  | [] => []
  | (k, v) :: rest =>
    match v with
    | .arr _ => [k] :: arrayPathsFields rest
    | .obj fields => (arrayPathsFields fields).map (k :: ·) ++ arrayPathsFields rest
    | _ => arrayPathsFields rest

end

/-- Reading a nested value along a list of keys. -/
def getValueAt (v : JValue) : List String → JValue
  | [] => v
  | k :: rest => getValueAt (v.getField k) rest

/-- Modelled from the spec: `getValueByPath` from `src/utils.ts` is not
among the available sources.  Spec §4.2: it "reads the value at a
discovered path (or returns `obj` unchanged for the root-path/undefined
case)". -/
def getValueByPath (v : JValue) (path : Option (List String)) : JValue :=
  match path with
  | none => v
  | some p => getValueAt v p

/-- Modelled from the spec: `setValueByPath` from `src/utils.ts` is not
among the available sources.  Spec §4.2: it "writes a value at a
discovered path by mutating the target container at the last path
segment"; in value semantics the localized mutation becomes a functional
update along the path.  The orchestrator only calls it with a non-empty
discovered path, along which every container is an object; an empty path
is modelled as a no-op. -/
def setValueByPath (v : JValue) : List String → JValue → JValue
  | [], _ => v
  | [k], value => setAtKey v k value
  | k :: rest, value => setAtKey v k (setValueByPath (v.getField k) rest value)

/-- A GraphQL query document, opaque except for the result key name of
the first field selected by its first definition — the only part of the
document that `src/offline.ts` inspects (via the external
`resultKeyNameFromField` helper). -/
structure DocumentNode where
  fieldName : String
deriving Repr, DecidableEq

/-- The helper `getOperationFieldName` from `src/offline.ts`: extract the result
key of the first selection of the first definition.  On the opaque
document model this is the recorded field name. -/
def getOperationFieldName (operation : DocumentNode) : String :=
  operation.fieldName

/-- A variable bag for a query (an open record of variable values). -/
def Vars : Type := List (String × JValue)

/-- The `QueryWithVariables` record from `src/offline.ts` (its `variables` field is
called `vars` here, `variables` being a reserved word in Lean). -/
structure QueryWithVariables where
  query : DocumentNode
  vars : Option Vars

/-- The `updateQuery` recipe value: either a `{query, variables?}` pair
or a bare document.  `updateCache` reads it as
`(updateQuery as QueryWithVariables).query || (updateQuery as DocumentNode)`
(a bare document has no `query` property, so the `||` falls through to
the document itself) and `(updateQuery as QueryWithVariables).variables || {}`. -/
inductive UpdateQueryArg where
  | withVars (q : QueryWithVariables)
  | bare (doc : DocumentNode)

/-- The document selected from an `updateQuery` recipe value. -/
def UpdateQueryArg.queryOf : UpdateQueryArg → DocumentNode
  | .withVars q => q.query
  | .bare doc => doc

/-- The variable bag selected from an `updateQuery` recipe value
(`variables || {}`). -/
def UpdateQueryArg.varsOf : UpdateQueryArg → Vars
  | .withVars q => q.vars.getD []
  | .bare _ => []

/-- The external cache client, reduced to the sole capability
`updateCache` consumes before writing: `readQuery` keyed by document and
variables, which either returns the cached result or fails (cache
miss / read error — the source wraps the call in `try/catch`). -/
structure Client where
  read : DocumentNode → Vars → Except Unit JValue

/-- One `writeQuery` call: the document, variables (`vars`) and data
passed to the external cache. -/
structure WriteCall where
  query : DocumentNode
  vars : Vars
  data : JValue

/-- Model of `Object.keys(data)[0]` — the operation field name of the payload.
Payloads are single-key records; a non-object payload has no keys in
this model. -/
def firstKey : JValue → Option String
  | .obj fields => (fields.map Prod.fst).head?
  | _ => none

/-- The identity-field resolution chain in `updateCache`:
`idField || offlineConfig.getIdFieldFromObject?.(mutatedItem) ||
offlineConfig.idField`.  JavaScript `||` skips falsy strings, so an
empty-string link falls through to the next one. -/
def resolveIdField (cfg : OfflineConfig) (idField : Option String)
    (item : JValue) : String :=
  let fromCallback : Option String :=
    match cfg.getIdFieldFromObject with
    | some f =>
      match f item with
      | some s => if s == "" then none else some s
      | none => none
    | none => none
  match idField with
  | some s =>
    if s == "" then fromCallback.getD cfg.idField else s
  | none => fromCallback.getD cfg.idField

/-- The recipe passed to immer's `produce` inside `updateCache`, as a
pure function of the cached query result.  `produce` runs the recipe on
a draft of the base value and returns the resulting value while leaving
the base untouched, so in value semantics the whole transaction is this
function: read `draft[queryField]`, discover the array path inside it,
apply the updater to the value at the path, then either assign
`draft[queryField]` (no path or root path) or write through the path
inside the sub-value. -/
def produceUpdate (queryField : String)
    (updaterFn : JValue → JValue → JValue) (mutatedItem : JValue)
    (cachedQueryResult : JValue) : JValue :=
  let opResultCachedValue := cachedQueryResult.getField queryField
  let path := findArrayInObject opResultCachedValue
  let update := updaterFn (getValueByPath opResultCachedValue path) mutatedItem
  match path with
  | none => setAtKey cachedQueryResult queryField update
  | some [] => setAtKey cachedQueryResult queryField update
  | some p =>
    setAtKey cachedQueryResult queryField (setValueByPath opResultCachedValue p update)

/-- The orchestrator `updateCache` from `src/offline.ts`.  The explicit-intent parameter
models the source's defaulted `operationType = CacheOperationTypes.AUTO`;
the result is the single `writeQuery` call performed, or `none` when the
function returns on one of its absorption branches (falsy payload, falsy
operation-field value, `readQuery` failure caught by the `try/catch`, or
empty read result).  The `updateQuery` recipe is required here, as it is
for every caller in the source (`updateCache` dereferences it before
reading the cache). -/
def updateCache (cfg : OfflineConfig) (client : Client) (data : JValue)
    (idField : Option String) (updateQuery : UpdateQueryArg)
    (operationType : Option CacheOperationTypes)
    (mapResultToUpdate : Option (JValue → JValue)) : Option WriteCall :=
  let opTypeArg := operationType.getD .AUTO
  if !data.truthy then none
  else
    let opFieldName := firstKey data
    let opType :=
      if opTypeArg = .AUTO then getOpTypeFromOperationName cfg (opFieldName.getD "")
      else opTypeArg
    if !(data.getField (opFieldName.getD "undefined")).truthy then none
    else
      let mutatedItem :=
        match mapResultToUpdate with
        | some f => f data
        | none => data.getField (opFieldName.getD "undefined")
      let query := updateQuery.queryOf
      let queryVars := updateQuery.varsOf
      let queryField := getOperationFieldName query
      match client.read query queryVars with
      | .error _ => none
      | .ok cachedQueryResult =>
        if !cachedQueryResult.truthy then none
        else
          let idFieldName := resolveIdField cfg idField mutatedItem
          let updaterFn := getUpdater opType idFieldName
          some ⟨query, queryVars,
            produceUpdate queryField updaterFn mutatedItem cachedQueryResult⟩

/-- An injected completion callback: what the `update` (respectively
`onSubscriptionData`) function injected by the options-augmentation
entry points does, namely map the client and the result payload to the
`writeQuery` call (if any) performed by `updateCache`. -/
def UpdateCallback : Type := Client → JValue → Option WriteCall

/-- The state of an optional callback option of a JavaScript options
object.  JavaScript distinguishes an object with no `update` own key at
all from one carrying an own key `update: undefined` (as produced by
`{update: cond ? fn : undefined}`): both are falsy under the source's
`options.update` guard, but the object spread `{update: cb, ...options}`
copies an undefined-valued own key over `cb`, while an absent key leaves
`cb` in place.  A present key holds either `undefined` or a function —
the shapes the TypeScript optional-function type admits. -/
inductive CallbackField where
  | absent : CallbackField
  | explicitUndefined : CallbackField
  | callback : UpdateCallback → CallbackField

/-- The `MutationOptions` record from `src/offline.ts`: the caller's mutation
options, i.e. the offline recipe fields together with the remaining
`MutationFunctionOptions`.  Of the latter only the `update` callback is
inspected by the source; every other option is kept opaque in the `rest`
field (type parameter `ρ`). -/
structure MutationOptions (ρ : Type) where
  updateQuery : Option UpdateQueryArg
  idField : Option String
  operationType : Option CacheOperationTypes
  mapResultToUpdate : Option (JValue → JValue)
  update : CallbackField
  rest : ρ

/-- The `MutationFunctionOptions` record (the result type of `getMutationOptions`):
the remaining options, with the recipe fields destructured away. -/
structure MutationFunctionOptions (ρ : Type) where
  update : CallbackField
  rest : ρ

/-- The entry point `getMutationOptions` from `src/offline.ts`: destructure the recipe
fields off the options; when no `updateQuery` recipe is given, or
`options.update` is truthy (a callback), return the remaining options
unchanged; otherwise build `{update: injected, ...options}`.  Because the
spread comes after the injected binding, a caller-supplied own key
`update: undefined` — falsy under the guard — clobbers the injected
callback, so in that case the result carries `update: undefined` and no
callback; only a wholly absent `update` key receives the injected
callback forwarding the client and result data to `updateCache` with the
recipe fields. -/
def getMutationOptions {ρ : Type} (cfg : OfflineConfig)
    (opts : MutationOptions ρ) : MutationFunctionOptions ρ :=
  match opts.updateQuery with
  | none => ⟨opts.update, opts.rest⟩
  | some uq =>
    match opts.update with
    | .callback u => ⟨.callback u, opts.rest⟩
    | .explicitUndefined => ⟨.explicitUndefined, opts.rest⟩
    | .absent =>
      ⟨.callback (fun client payload =>
        updateCache cfg client payload opts.idField uq opts.operationType
          opts.mapResultToUpdate),
        opts.rest⟩

/-- The `SubscriptionOptions` record from `src/offline.ts`: the offline recipe
fields together with the remaining `BaseSubscriptionOptions`, of which
only the `onSubscriptionData` callback is inspected. -/
structure SubscriptionOptions (ρ : Type) where
  updateQuery : Option UpdateQueryArg
  idField : Option String
  operationType : Option CacheOperationTypes
  mapResultToUpdate : Option (JValue → JValue)
  onSubscriptionData : CallbackField
  rest : ρ

/-- The `BaseSubscriptionOptions` record (the result type of
`getSubscriptionOptions`). -/
structure BaseSubscriptionOptions (ρ : Type) where
  onSubscriptionData : CallbackField
  rest : ρ

/-- The entry point `getSubscriptionOptions` from `src/offline.ts`: as
`getMutationOptions`, with `onSubscriptionData` in place of `update` —
including the spread clobbering an injected callback whenever the caller
passed an own `onSubscriptionData: undefined` key. -/
def getSubscriptionOptions {ρ : Type} (cfg : OfflineConfig)
    (opts : SubscriptionOptions ρ) : BaseSubscriptionOptions ρ :=
  match opts.updateQuery with
  | none => ⟨opts.onSubscriptionData, opts.rest⟩
  | some uq =>
    match opts.onSubscriptionData with
    | .callback u => ⟨.callback u, opts.rest⟩
    | .explicitUndefined => ⟨.explicitUndefined, opts.rest⟩
    | .absent =>
      ⟨.callback (fun client payload =>
        updateCache cfg client payload opts.idField uq opts.operationType
          opts.mapResultToUpdate),
        opts.rest⟩

mutual

/-- Well-formed JavaScript object graphs: every object in the value has
pairwise-distinct keys.  JavaScript objects cannot carry duplicate own
keys, so every value the runtime actually produces satisfies this. -/
def wfKeys : JValue → Bool
  | .obj fields => wfKeysFields fields
  | .arr elems => wfKeysList elems
  | _ => true

/-- Key-wellformedness of a field list: the head key does not recur and
all values are well-formed. -/
def wfKeysFields : List (String × JValue) → Bool
  | [] => true
  | (k, v) :: rest =>
    !(rest.any (fun p => p.1 == k)) && wfKeys v && wfKeysFields rest

/-- Key-wellformedness of the elements of an array. -/
def wfKeysList : List JValue → Bool
  | [] => true
  | v :: rest => wfKeys v && wfKeysList rest

end

/-- Path `q` branches off the path `p` strictly before `p` ends: the two share
a stem and then take different keys.  A value read along such a `q` lies
in a subtree untouched by a write along `p`. -/
def branchesBefore (p q : List String) : Prop :=
  ∃ a k k' p' q', p = a ++ k :: p' ∧ q = a ++ k' :: q' ∧ k ≠ k'

/-- Whether any stem in the list matches the operation name — the
`prefix.some(comparator)` test of one classifier row. -/
def anyMatches (ps : List String) (opName : String) : Bool :=
  ps.any (opNameMatches opName)

/-- Sample item `post1` from the repository's test suite. -/
def post1 : JValue :=
  .obj [("__typename", .str "post"), ("id", .num 1), ("user_id", .num 1),
        ("title", .str "A day on the beach"), ("date", .str "2018-01-01")]

/-- Sample item `post2` from the repository's test suite. -/
def post2 : JValue :=
  .obj [("__typename", .str "post"), ("id", .num 24), ("user_id", .num 10),
        ("title", .str "Coding for joy"), ("date", .str "2018-12-24")]

/-- Sample item `post3` from the repository's test suite. -/
def post3 : JValue :=
  .obj [("__typename", .str "post"), ("id", .num 25), ("user_id", .num 9),
        ("title", .str "On the road"), ("date", .str "2018-12-25")]

/-- The field list of `post3`. -/
def post3Fields : List (String × JValue) :=
  [("__typename", .str "post"), ("id", .num 25), ("user_id", .num 9),
   ("title", .str "On the road"), ("date", .str "2018-12-25")]

/-- Sample item `newPost` from the repository's test suite. -/
def newPost : JValue :=
  .obj [("__typename", .str "post"), ("id", .num 26), ("user_id", .num 11),
        ("title", .str "New post"), ("date", .str "2018-12-31")]

/-- The update patch `{id: post3.id, title: 'Updated post', __typename: 'post'}`
from the repository's test suite. -/
def updatedPost : JValue :=
  .obj [("id", .num 25), ("title", .str "Updated post"), ("__typename", .str "post")]

/-- The sample collection `[post1, post2, post3]`. -/
def samplePosts : List JValue := [post1, post2, post3]

/-- The `postsQuery` document (its first selection is the field `posts`). -/
def postsQueryDoc : DocumentNode := ⟨"posts"⟩

/-- A client whose cache is primed with `{posts: [post1, post2, post3]}`
for `postsQuery` and misses on everything else. -/
def primedClient : Client :=
  ⟨fun d _ =>
    if d.fieldName = "posts" then .ok (.obj [("posts", .arr samplePosts)])
    else .error ()⟩

/-- A client whose cache was never primed: every read fails. -/
def missClient : Client := ⟨fun _ _ => .error ()⟩

/-- The `featuredPostsQuery`-style cached result of §8: the collection
is nested under `posts.featured`, next to a scalar sibling `total`. -/
def featuredResult : JValue :=
  .obj [("posts", .obj [("featured", .arr samplePosts), ("total", .num 10)]),
        ("meta", .str "m")]

/-- A client primed with `featuredResult` for a query selecting `posts`. -/
def featuredClient : Client :=
  ⟨fun d _ => if d.fieldName = "posts" then .ok featuredResult else .error ()⟩

/-- A configuration on which the ADD and REMOVE stem lists overlap: the
name `abc` starts with the ADD stem `a` and with the REMOVE stem `ab`. -/
def ambiguousConfig : OfflineConfig :=
  { prefixesForRemove := ["ab"]
    prefixesForUpdate := []
    prefixesForAdd := ["a"]
    getIdFieldFromObject := none
    idField := "id" }

/-- A caller-supplied completion callback used to exercise the
caller-callback-wins branch of the option-augmentation entry points. -/
def sampleCallback : UpdateCallback := fun _ _ => none

/-- The value `featuredResult` after adding `newPost` to the nested `featured`
collection: what `updateCache` writes back in the nested-path scenario. -/
def featuredPatched : JValue :=
  .obj [("posts", .obj [("featured", .arr [post1, post2, post3, newPost]),
                        ("total", .num 10)]),
        ("meta", .str "m")]

/-- The `writeQuery` call performed in the nested-path scenario. -/
def featuredWrite : WriteCall := ⟨postsQueryDoc, [], featuredPatched⟩

/-- A stem list matches an operation name exactly when some stem is a
lower-cased-name prefix directly or behind `on`. -/
theorem anyMatches_iff (ps : List String) (n : String) :
    anyMatches ps n = true ↔
      ∃ p ∈ ps, strStartsWith (strToLower n) p = true ∨
        strStartsWith (strToLower n) ("on" ++ p) = true := by
  simp [anyMatches, opNameMatches, List.any_eq_true]

/-- Closed form of `getOpTypeFromOperationName`: the `forEach` loop
assigns every matching row, so the LAST matching row in the order ADD,
REMOVE, UPDATE determines the result. -/
theorem getOpType_characterization (cfg : OfflineConfig) (n : String) :
    getOpTypeFromOperationName cfg n =
      if anyMatches cfg.prefixesForUpdate n then .UPDATE
      else if anyMatches cfg.prefixesForRemove n then .REMOVE
      else if anyMatches cfg.prefixesForAdd n then .ADD
      else .AUTO := by
  simp only [getOpTypeFromOperationName, anyMatches, List.foldl]

/-- Claim C1 counterexample: with ADD stems `[\"a\"]` and REMOVE stems
`[\"ab\"]`, the name `abc` matches both lists, yet
`getOpTypeFromOperationName` returns REMOVE, not the first-tested
category ADD that the claim prescribes. -/
theorem C1_counterexample :
    anyMatches ambiguousConfig.prefixesForAdd "abc" = true ∧
    anyMatches ambiguousConfig.prefixesForRemove "abc" = true ∧
    getOpTypeFromOperationName ambiguousConfig "abc" = .REMOVE ∧
    getOpTypeFromOperationName ambiguousConfig "abc" ≠ .ADD :=
  ⟨rfl, rfl, rfl, by decide⟩

/-- Claim C1 (amended): when an operation name matches stem lists of
more than one category, the category of the LAST matching row in the
evaluation order ADD, REMOVE, UPDATE wins — UPDATE takes priority over
REMOVE, and REMOVE over ADD (the `forEach` callback's `return` does not
break the loop, so later assignments overwrite earlier ones). -/
theorem C1_last_match_wins (cfg : OfflineConfig) (n : String) :
    getOpTypeFromOperationName cfg n =
      if anyMatches cfg.prefixesForUpdate n then .UPDATE
      else if anyMatches cfg.prefixesForRemove n then .REMOVE
      else if anyMatches cfg.prefixesForAdd n then .ADD
      else .AUTO :=
  getOpType_characterization cfg n

/-- Claim C7: `getOpTypeFromOperationName` lowercases the name and
assigns a category only when the lowercased name starts with one of that
category's configured stems or with `on` followed by such a stem;
it returns AUTO exactly when no list matches; the updater resolved for
AUTO is the identity passthrough; and with the default lists,
`createPost`, `newPost`, `insertPost` classify as ADD, `updatePost`,
`editPost` as UPDATE, and `removePost`, `deletePost` as REMOVE. -/
theorem C7_classification (cfg : OfflineConfig) (n : String) :
    ((getOpTypeFromOperationName cfg n = .ADD →
      ∃ p ∈ cfg.prefixesForAdd,
        strStartsWith (strToLower n) p = true ∨
        strStartsWith (strToLower n) ("on" ++ p) = true) ∧
     (getOpTypeFromOperationName cfg n = .REMOVE →
      ∃ p ∈ cfg.prefixesForRemove,
        strStartsWith (strToLower n) p = true ∨
        strStartsWith (strToLower n) ("on" ++ p) = true) ∧
     (getOpTypeFromOperationName cfg n = .UPDATE →
      ∃ p ∈ cfg.prefixesForUpdate,
        strStartsWith (strToLower n) p = true ∨
        strStartsWith (strToLower n) ("on" ++ p) = true)) ∧
    (getOpTypeFromOperationName cfg n = .AUTO ↔
      anyMatches cfg.prefixesForAdd n = false ∧
      anyMatches cfg.prefixesForRemove n = false ∧
      anyMatches cfg.prefixesForUpdate n = false) ∧
    (∀ (f : String) (c ni : JValue), getUpdater .AUTO f c ni = c) ∧
    (getOpTypeFromOperationName offlineConfig "createPost" = .ADD ∧
     getOpTypeFromOperationName offlineConfig "newPost" = .ADD ∧
     getOpTypeFromOperationName offlineConfig "insertPost" = .ADD ∧
     getOpTypeFromOperationName offlineConfig "updatePost" = .UPDATE ∧
     getOpTypeFromOperationName offlineConfig "editPost" = .UPDATE ∧
     getOpTypeFromOperationName offlineConfig "removePost" = .REMOVE ∧
     getOpTypeFromOperationName offlineConfig "deletePost" = .REMOVE) := by
  have hc := getOpType_characterization cfg n
  refine ⟨⟨?_, ?_, ?_⟩, ?_, fun f c ni => rfl, rfl, rfl, rfl, rfl, rfl, rfl, rfl⟩
  · intro h
    rw [hc] at h
    rw [← anyMatches_iff]
    by_cases hu : anyMatches cfg.prefixesForUpdate n = true <;>
      by_cases hr : anyMatches cfg.prefixesForRemove n = true <;>
        by_cases ha : anyMatches cfg.prefixesForAdd n = true <;>
          simp [hu, hr, ha] at h ⊢
  · intro h
    rw [hc] at h
    rw [← anyMatches_iff]
    by_cases hu : anyMatches cfg.prefixesForUpdate n = true <;>
      by_cases hr : anyMatches cfg.prefixesForRemove n = true <;>
        by_cases ha : anyMatches cfg.prefixesForAdd n = true <;>
          simp [hu, hr, ha] at h ⊢
  · intro h
    rw [hc] at h
    rw [← anyMatches_iff]
    by_cases hu : anyMatches cfg.prefixesForUpdate n = true <;>
      by_cases hr : anyMatches cfg.prefixesForRemove n = true <;>
        by_cases ha : anyMatches cfg.prefixesForAdd n = true <;>
          simp [hu, hr, ha] at h ⊢
  · rw [hc]
    by_cases hu : anyMatches cfg.prefixesForUpdate n = true <;>
      by_cases hr : anyMatches cfg.prefixesForRemove n = true <;>
        by_cases ha : anyMatches cfg.prefixesForAdd n = true <;>
          simp [hu, hr, ha]

/-- Witness for C7 at the concrete name `createPost`. -/
theorem C7_witness :
    ∃ p ∈ offlineConfig.prefixesForAdd,
      strStartsWith (strToLower "createPost") p = true ∨
      strStartsWith (strToLower "createPost") ("on" ++ p) = true :=
  (C7_classification offlineConfig "createPost").1.1 rfl

/-- Claim C3: `getUpdater ADD idField` maps an array `current` and a
present (truthy) `newItem` to the array obtained by removing every
element whose identity value strictly equals `newItem`'s and appending
`newItem` at the end (so no remaining element shares its identity value,
and the new item is last); an absent `newItem` yields a copy of the
array with the same elements in the same order; a non-array `current`
yields `newItem` itself. -/
theorem C3_add (f : String) (items : List JValue) (ni v : JValue)
    (hni : ni.truthy = true) (hv : ∀ xs, v ≠ .arr xs) :
    getUpdater .ADD f (.arr items) ni =
      .arr ((items.filter
        (fun item => !strictEq (item.getField f) (ni.getField f))) ++ [ni]) ∧
    (∃ ys, getUpdater .ADD f (.arr items) ni = .arr (ys ++ [ni]) ∧
      ∀ item ∈ ys, strictEq (item.getField f) (ni.getField f) = false) ∧
    getUpdater .ADD f (.arr items) .undefined = .arr items ∧
    getUpdater .ADD f v ni = ni := by
  refine ⟨by simp [getUpdater, hni],
    ⟨items.filter (fun item => !strictEq (item.getField f) (ni.getField f)),
      by simp [getUpdater, hni], ?_⟩, rfl, ?_⟩
  · intro item hm
    have h := List.of_mem_filter hm
    simpa using h
  · cases v with
    | arr xs => exact absurd rfl (hv xs)
    | undefined => rfl
    | null => rfl
    | bool b => rfl
    | num n => rfl
    | str s => rfl
    | obj fields => rfl

/-- Claim C4: `getUpdater REMOVE idField` maps an array `current` and a
present `newItem` to the array excluding exactly the elements whose
identity value strictly equals `newItem`'s, keeping the remaining
elements in order (a sublist); an absent `newItem` yields a copy with
the same elements; a non-array single-item `current` yields `null`
regardless of `newItem`; strict equality does not coerce types
(`1` never equals `\"1\"`). -/
theorem C4_remove (f : String) (items : List JValue) (ni v : JValue)
    (hni : ni.truthy = true) (hv : ∀ xs, v ≠ .arr xs) :
    getUpdater .REMOVE f (.arr items) ni =
      .arr (items.filter (fun item => !strictEq (item.getField f) (ni.getField f))) ∧
    (∃ ys, getUpdater .REMOVE f (.arr items) ni = .arr ys ∧ List.Sublist ys items ∧
      ∀ item, item ∈ ys ↔
        item ∈ items ∧ strictEq (item.getField f) (ni.getField f) = false) ∧
    getUpdater .REMOVE f (.arr items) .undefined = .arr items ∧
    (∀ ni', getUpdater .REMOVE f v ni' = .null) ∧
    strictEq (.num 1) (.str "1") = false := by
  refine ⟨by simp [getUpdater, hni],
    ⟨items.filter (fun item => !strictEq (item.getField f) (ni.getField f)),
      by simp [getUpdater, hni], List.filter_sublist items, ?_⟩, rfl, ?_, rfl⟩
  · intro item
    simp [List.mem_filter]
  · intro ni'
    cases v with
    | arr xs => exact absurd rfl (hv xs)
    | undefined => rfl
    | null => rfl
    | bool b => rfl
    | num n => rfl
    | str s => rfl
    | obj fields => rfl

/-- Witness for C3 on the test suite's posts collection. -/
theorem C3_witness :
    getUpdater .ADD "id" (.arr samplePosts) newPost =
      .arr [post1, post2, post3, newPost] ∧
    getUpdater .ADD "id" (.obj []) newPost = newPost := by
  have h := C3_add "id" samplePosts newPost (.obj [])
    rfl (fun xs h => by cases h)
  exact ⟨h.1.trans rfl, h.2.2.2⟩

/-- Witness for C4 on the test suite's posts collection. -/
theorem C4_witness :
    getUpdater .REMOVE "id" (.arr samplePosts) (.obj [("id", .num 1)]) =
      .arr [post2, post3] ∧
    getUpdater .REMOVE "id" (.obj []) (.obj [("id", .num 1)]) = .null := by
  have h := C4_remove "id" samplePosts (.obj [("id", .num 1)]) (.obj [])
    rfl (fun xs h => by cases h)
  exact ⟨h.1.trans rfl, h.2.2.2.1 _⟩

/-- Inserting an existing key rewrites the bindings in place. -/
theorem objInsert_eq_map (a : List (String × JValue)) (k : String) (v : JValue)
    (h : k ∈ a.map Prod.fst) :
    objInsert a k v = a.map (fun p => if p.1 == k then (k, v) else p) := by
  unfold objInsert
  rw [if_pos]
  simpa [List.any_eq_true, List.mem_map] using h

/-- Inserting an existing key leaves the key list unchanged. -/
theorem objInsert_keys (a : List (String × JValue)) (k : String) (v : JValue)
    (h : k ∈ a.map Prod.fst) :
    (objInsert a k v).map Prod.fst = a.map Prod.fst := by
  rw [objInsert_eq_map a k v h, List.map_map]
  apply List.map_congr_left
  intro p _
  by_cases hk : p.1 = k <;> simp [hk]

/-- Spreading `pick ni ks` over a field list whose keys include the
distinct keys `ks` overwrites exactly the `ks`-bindings for which `ni`
has the field, preserving keys and order. -/
theorem spreadFields_pick (ni : JValue) :
    ∀ (ks : List String) (a : List (String × JValue)),
      (a.map Prod.fst).Nodup → ks.Nodup → (∀ k ∈ ks, k ∈ a.map Prod.fst) →
      spreadFields a (pick ni ks) =
        a.map (fun p =>
          if p.1 ∈ ks ∧ ni.hasKey p.1 = true then (p.1, ni.getField p.1) else p) := by
  intro ks
  induction ks with
  | nil => intro a _ _ _; simp [spreadFields, pick]
  | cons k ks ih =>
    intro a ha hks hmem
    have hkmem : k ∈ a.map Prod.fst := hmem k (List.mem_cons_self k ks)
    have hknotin : k ∉ ks := (List.nodup_cons.mp hks).1
    have hksnodup : ks.Nodup := (List.nodup_cons.mp hks).2
    by_cases hk : ni.hasKey k = true
    · have hpick : pick ni (k :: ks) = (k, ni.getField k) :: pick ni ks := by
        simp [pick, List.filterMap_cons, hk]
      rw [hpick]
      have hstep : spreadFields a ((k, ni.getField k) :: pick ni ks) =
          spreadFields (objInsert a k (ni.getField k)) (pick ni ks) := rfl
      rw [hstep]
      have ha' : ((objInsert a k (ni.getField k)).map Prod.fst).Nodup := by
        rw [objInsert_keys a k _ hkmem]; exact ha
      have hmem' : ∀ k' ∈ ks, k' ∈ (objInsert a k (ni.getField k)).map Prod.fst := by
        intro k' hk'
        rw [objInsert_keys a k _ hkmem]
        exact hmem k' (List.mem_cons_of_mem k hk')
      rw [ih (objInsert a k (ni.getField k)) ha' hksnodup hmem']
      rw [objInsert_eq_map a k _ hkmem, List.map_map]
      apply List.map_congr_left
      intro p _
      by_cases hpk : p.1 = k
      · simp [hpk, hknotin, hk]
      · have : (p.1 == k) = false := by simp [hpk]
        simp only [Function.comp_apply, this, Bool.false_eq_true, if_false]
        by_cases hin : p.1 ∈ ks <;> simp [hin, hpk, List.mem_cons]
    · have hpick : pick ni (k :: ks) = pick ni ks := by
        simp [pick, List.filterMap_cons, hk]
      rw [hpick, ih a ha hksnodup (fun k' hk' => hmem k' (List.mem_cons_of_mem k hk'))]
      apply List.map_congr_left
      intro p _
      by_cases hpk : p.1 = k
      · simp [hpk, hk]
      · by_cases hin : p.1 ∈ ks <;> simp [hin, hpk, List.mem_cons]

/-- Claim C2: `getUpdater UPDATE idField` maps an array `current` and a
present `newItem` to the same-length, same-order array in which each
element whose identity value strictly equals `newItem`'s is replaced
wholesale by `newItem` and every other element passes through; a
single-item (object) `current` is shallow-merged: the result keeps
exactly `current`'s own keys, each key other than the type discriminator
`__typename` is overwritten with `newItem`'s corresponding field when
present, and fields of `newItem` outside `current`'s key set are
dropped. -/
theorem C2_update (f : String) (items : List JValue)
    (fields : List (String × JValue)) (ni : JValue)
    (hni : ni.truthy = true) (hnodup : (fields.map Prod.fst).Nodup) :
    getUpdater .UPDATE f (.arr items) ni =
      .arr (items.map (fun item =>
        if strictEq (item.getField f) (ni.getField f) then ni else item)) ∧
    (∀ ys, getUpdater .UPDATE f (.arr items) ni = .arr ys → ys.length = items.length) ∧
    getUpdater .UPDATE f (.obj fields) ni =
      .obj (fields.map (fun p =>
        if p.1 ≠ "__typename" ∧ ni.hasKey p.1 = true
        then (p.1, ni.getField p.1) else p)) := by
  have harr : getUpdater .UPDATE f (.arr items) ni =
      .arr (items.map (fun item =>
        if strictEq (item.getField f) (ni.getField f) then ni else item)) := by
    simp [getUpdater, hni]
  refine ⟨harr, ?_, ?_⟩
  · intro ys hys
    rw [harr] at hys
    cases hys
    simp
  · show JValue.obj (spreadFields fields
      (pick ni (((JValue.obj fields).ownKeys).filter (fun k => k != "__typename")))) = _
    have hks : (fields.map Prod.fst).filter (fun k => k != "__typename") =
        ((JValue.obj fields).ownKeys).filter (fun k => k != "__typename") := rfl
    rw [← hks]
    rw [spreadFields_pick ni _ fields hnodup (hnodup.filter _)
      (fun k hk => List.mem_of_mem_filter hk)]
    congr 1
    apply List.map_congr_left
    intro p hp
    have hpmem : p.1 ∈ fields.map Prod.fst := List.mem_map_of_mem Prod.fst hp
    by_cases ht : p.1 = "__typename"
    · simp [ht, List.mem_filter]
    · by_cases hh : ni.hasKey p.1 = true <;>
        simp [List.mem_filter, hpmem, ht, hh]

/-- Witness for C2 on the test suite's posts collection and `post3`. -/
theorem C2_witness :
    getUpdater .UPDATE "id" (.arr samplePosts) updatedPost =
      .arr [post1, post2, updatedPost] ∧
    getUpdater .UPDATE "id" (.obj post3Fields) updatedPost =
      .obj [("__typename", .str "post"), ("id", .num 25), ("user_id", .num 9),
            ("title", .str "Updated post"), ("date", .str "2018-12-25")] := by
  have h := C2_update "id" samplePosts post3Fields updatedPost rfl (by decide)
  exact ⟨h.1.trans rfl, h.2.2.trans rfl⟩


/-- Claim C9 counterexample: with an `updateQuery` recipe supplied and
the caller's options carrying an own key `update: undefined` — no update
callback provided — the claim prescribes injecting a completion
callback; but the `options.update` guard is falsy, and the spread in
`{update: cb, ...options}` copies the caller's undefined-valued key over
the injected callback, so `getMutationOptions` returns the options with
`update` still undefined and no callback at all (likewise
`getSubscriptionOptions` for `onSubscriptionData`). -/
theorem C9_counterexample :
    (getMutationOptions offlineConfig
      (⟨some (.bare postsQueryDoc), none, none, none, .explicitUndefined, ()⟩ :
        MutationOptions Unit)).update = .explicitUndefined ∧
    (∀ f, (getMutationOptions offlineConfig
      (⟨some (.bare postsQueryDoc), none, none, none, .explicitUndefined, ()⟩ :
        MutationOptions Unit)).update ≠ .callback f) ∧
    (getSubscriptionOptions offlineConfig
      (⟨some (.bare postsQueryDoc), none, none, none, .explicitUndefined, ()⟩ :
        SubscriptionOptions Unit)).onSubscriptionData = .explicitUndefined := by
  refine ⟨rfl, ?_, rfl⟩
  intro f h
  simp [getMutationOptions] at h

/-- Claim C9 (amended): `getMutationOptions`
(resp. `getSubscriptionOptions`) returns its remaining options unchanged
whenever no `updateQuery` recipe is supplied or the caller's options
carry an own `update` (resp. `onSubscriptionData`) key — whether a
callback, which wins outright and is never layered over, or an
explicitly undefined value, which the trailing spread copies over the
injected callback so that none is injected; only when the key is wholly
absent are the same options returned extended with exactly one injected
callback that invokes `updateCache` with the recipe fields. -/
theorem C9_options {ρ : Type} (cfg : OfflineConfig)
    (mo : MutationOptions ρ) (so : SubscriptionOptions ρ) :
    ((mo.updateQuery = none → getMutationOptions cfg mo = ⟨mo.update, mo.rest⟩) ∧
     (∀ u, mo.update = .callback u →
       getMutationOptions cfg mo = ⟨.callback u, mo.rest⟩) ∧
     (mo.update = .explicitUndefined →
       getMutationOptions cfg mo = ⟨.explicitUndefined, mo.rest⟩) ∧
     (∀ uq, mo.updateQuery = some uq → mo.update = .absent →
       (getMutationOptions cfg mo).rest = mo.rest ∧
       ∃ cb, (getMutationOptions cfg mo).update = .callback cb ∧
         ∀ client payload, cb client payload =
           updateCache cfg client payload mo.idField uq mo.operationType
             mo.mapResultToUpdate)) ∧
    ((so.updateQuery = none →
       getSubscriptionOptions cfg so = ⟨so.onSubscriptionData, so.rest⟩) ∧
     (∀ u, so.onSubscriptionData = .callback u →
       getSubscriptionOptions cfg so = ⟨.callback u, so.rest⟩) ∧
     (so.onSubscriptionData = .explicitUndefined →
       getSubscriptionOptions cfg so = ⟨.explicitUndefined, so.rest⟩) ∧
     (∀ uq, so.updateQuery = some uq → so.onSubscriptionData = .absent →
       (getSubscriptionOptions cfg so).rest = so.rest ∧
       ∃ cb, (getSubscriptionOptions cfg so).onSubscriptionData = .callback cb ∧
         ∀ client payload, cb client payload =
           updateCache cfg client payload so.idField uq so.operationType
             so.mapResultToUpdate)) := by
  refine ⟨⟨?_, ?_, ?_, ?_⟩, ?_, ?_, ?_, ?_⟩
  · intro h; simp [getMutationOptions, h]
  · intro u hu; cases h : mo.updateQuery <;> simp [getMutationOptions, h, hu]
  · intro hu; cases h : mo.updateQuery <;> simp [getMutationOptions, h, hu]
  · intro uq huq hu
    simp [getMutationOptions, huq, hu]
  · intro h; simp [getSubscriptionOptions, h]
  · intro u hu; cases h : so.updateQuery <;> simp [getSubscriptionOptions, h, hu]
  · intro hu; cases h : so.updateQuery <;> simp [getSubscriptionOptions, h, hu]
  · intro uq huq hu
    simp [getSubscriptionOptions, huq, hu]

/-- Witness for C9: a caller-supplied callback survives, and with the
callback key wholly absent the injected one forwards to `updateCache`. -/
theorem C9_witness :
    getMutationOptions offlineConfig
      (⟨some (.bare postsQueryDoc), none, none, none,
        .callback sampleCallback, ()⟩ : MutationOptions Unit) =
      ⟨.callback sampleCallback, ()⟩ ∧
    (∃ cb,
      (getSubscriptionOptions offlineConfig
        (⟨some (.bare postsQueryDoc), none, none, none, .absent, ()⟩ :
          SubscriptionOptions Unit)).onSubscriptionData = .callback cb ∧
      ∀ client payload, cb client payload =
        updateCache offlineConfig client payload none (.bare postsQueryDoc)
          none none) := by
  refine ⟨?_, ?_⟩
  · exact (C9_options offlineConfig
      (⟨some (.bare postsQueryDoc), none, none, none,
        .callback sampleCallback, ()⟩ : MutationOptions Unit)
      (⟨some (.bare postsQueryDoc), none, none, none, .absent, ()⟩ :
        SubscriptionOptions Unit)).1.2.1 sampleCallback rfl
  · exact ((C9_options offlineConfig
      (⟨some (.bare postsQueryDoc), none, none, none,
        .callback sampleCallback, ()⟩ : MutationOptions Unit)
      (⟨some (.bare postsQueryDoc), none, none, none, .absent, ()⟩ :
        SubscriptionOptions Unit)).2.2.2.2 _ rfl rfl).2

/-- Claim C5: `updateCache` performs no `writeQuery` call and raises no
error — leaving the cache untouched — whenever the payload is falsy, the
payload's operation-field value is falsy, `readQuery` fails (cache miss,
caught by the `try/catch`), or `readQuery` returns an empty result. -/
theorem C5_noop (cfg : OfflineConfig) (client : Client) (data : JValue)
    (idField : Option String) (uq : UpdateQueryArg)
    (opTy : Option CacheOperationTypes) (mapFn : Option (JValue → JValue)) :
    (data.truthy = false →
      updateCache cfg client data idField uq opTy mapFn = none) ∧
    ((data.getField ((firstKey data).getD "undefined")).truthy = false →
      updateCache cfg client data idField uq opTy mapFn = none) ∧
    (client.read uq.queryOf uq.varsOf = .error () →
      updateCache cfg client data idField uq opTy mapFn = none) ∧
    (∀ res, client.read uq.queryOf uq.varsOf = .ok res → res.truthy = false →
      updateCache cfg client data idField uq opTy mapFn = none) := by
  refine ⟨?_, ?_, ?_, ?_⟩
  · intro h; simp [updateCache, h]
  · intro h
    cases hd : data.truthy <;> simp [updateCache, hd, h]
  · intro h
    cases hd : data.truthy <;>
      cases hf : (data.getField ((firstKey data).getD "undefined")).truthy <;>
        simp [updateCache, hd, hf, h]
  · intro res hok hres
    cases hd : data.truthy <;>
      cases hf : (data.getField ((firstKey data).getD "undefined")).truthy <;>
        simp [updateCache, hd, hf, hok, hres]

/-- Witness for C5: an unprimed cache, an absent payload and a null
operation-field value each produce no write. -/
theorem C5_witness :
    updateCache offlineConfig missClient (.obj [("createPost", newPost)]) none
      (.bare postsQueryDoc) none none = none ∧
    updateCache offlineConfig primedClient .undefined none
      (.bare postsQueryDoc) none none = none ∧
    updateCache offlineConfig primedClient (.obj [("createPost", .null)]) none
      (.bare postsQueryDoc) none none = none :=
  ⟨(C5_noop offlineConfig missClient (.obj [("createPost", newPost)]) none
      (.bare postsQueryDoc) none none).2.2.1 rfl,
   (C5_noop offlineConfig primedClient .undefined none
      (.bare postsQueryDoc) none none).1 rfl,
   (C5_noop offlineConfig primedClient (.obj [("createPost", .null)]) none
      (.bare postsQueryDoc) none none).2.1 rfl⟩

/-- Writing a property on a non-object is a no-op in this model. -/
theorem setAtKey_nonobj (v : JValue) (k : String) (w : JValue)
    (h : ∀ fs, v ≠ .obj fs) : setAtKey v k w = v := by
  cases v with
  | obj fs => exact absurd rfl (h fs)
  | undefined => rfl
  | null => rfl
  | bool b => rfl
  | num n => rfl
  | str s => rfl
  | arr xs => rfl

/-- Overwriting key `k` does not disturb lookups of a different key. -/
theorem find?_map_setKey (fields : List (String × JValue)) (k k' : String)
    (w : JValue) (hne : k' ≠ k) :
    (fields.map (fun p => if p.1 == k then (k, w) else p)).find?
        (fun p => p.1 == k') =
      fields.find? (fun p => p.1 == k') := by
  rw [List.find?_map]
  have hpred : ((fun p : String × JValue => p.1 == k') ∘
      (fun p => if p.1 == k then (k, w) else p)) = (fun p => p.1 == k') := by
    funext p
    by_cases hk : p.1 = k
    · simp [hk]
    · simp [hk]
  rw [hpred]
  cases hf : fields.find? (fun p => p.1 == k') with
  | none => rfl
  | some pr =>
    have hpr : pr.1 = k' := by simpa using List.find?_some hf
    have : (pr.1 == k) = false := by
      rw [hpr]
      simpa using hne
    simp [Option.map, this]

/-- Reading a different key after a keyed write sees the old value. -/
theorem getField_setAtKey_ne (v : JValue) (k k' : String) (w : JValue)
    (hne : k' ≠ k) : (setAtKey v k w).getField k' = v.getField k' := by
  cases v with
  | obj fields =>
    by_cases ha : fields.any (fun p => p.1 == k) = true
    · simp only [setAtKey, ha, if_true, JValue.getField]
      rw [find?_map_setKey fields k k' w hne]
    · simp only [setAtKey, ha, if_false, Bool.false_eq_true, JValue.getField]
      rw [List.find?_append]
      have h1 : ([(k, w)].find? (fun p => p.1 == k')) = none := by
        have : (k == k') = false := by simpa using Ne.symm hne
        simp [List.find?_cons, this]
      rw [h1]
      cases h : fields.find? (fun p => p.1 == k') <;> simp
  | undefined => rfl
  | null => rfl
  | bool b => rfl
  | num n => rfl
  | str s => rfl
  | arr xs => rfl

/-- Reading the key just written returns the written value. -/
theorem getField_setAtKey_self (fields : List (String × JValue)) (k : String)
    (w : JValue) : (setAtKey (.obj fields) k w).getField k = w := by
  by_cases ha : fields.any (fun p => p.1 == k) = true
  · simp only [setAtKey, ha, if_true, JValue.getField]
    rw [List.find?_map]
    have hpred : ((fun p : String × JValue => p.1 == k) ∘
        (fun p => if p.1 == k then (k, w) else p)) = (fun p => p.1 == k) := by
      funext p
      by_cases hk : p.1 = k <;> simp [hk]
    rw [hpred]
    have hsome : (fields.find? (fun p => p.1 == k)).isSome = true := by
      rw [List.find?_isSome]
      obtain ⟨x, hx, hpx⟩ := List.any_eq_true.mp ha
      exact ⟨x, hx, hpx⟩
    obtain ⟨pr, hpr⟩ := Option.isSome_iff_exists.mp hsome
    have hk := List.find?_some hpr
    simp only [] at hk
    simp [hpr, Option.map, hk]
  · simp only [setAtKey, ha, if_false, Bool.false_eq_true, JValue.getField]
    rw [List.find?_append]
    have hnone : fields.find? (fun p => p.1 == k) = none := by
      rw [List.find?_eq_none]
      intro p hp hc
      exact ha (List.any_eq_true.mpr ⟨p, hp, hc⟩)
    simp [hnone, List.find?_cons]

/-- Overwriting an absent key by mapping is the identity. -/
theorem map_setKey_not_mem (fields : List (String × JValue)) (k : String)
    (w : JValue) (h : k ∉ fields.map Prod.fst) :
    fields.map (fun p => if p.1 == k then (k, w) else p) = fields := by
  induction fields with
  | nil => rfl
  | cons hd rest ih =>
    have hk : (hd.1 == k) = false := by
      have hne : hd.1 ≠ k := fun hc => h (by simp [hc])
      simpa using hne
    have hrest : k ∉ rest.map Prod.fst := fun hc => h (List.mem_cons_of_mem _ hc)
    rw [List.map_cons, ih hrest, if_neg (by simp [hk])]

/-- Splitting key-nodupness of a cons field list. -/
theorem nodup_keys_cons (hd : String × JValue) (rest : List (String × JValue))
    (hnd : ((hd :: rest).map Prod.fst).Nodup) :
    hd.1 ∉ rest.map Prod.fst ∧ (rest.map Prod.fst).Nodup := by
  rw [List.map_cons] at hnd
  exact List.nodup_cons.mp hnd

/-- Overwriting a key with the value it already has (per `find?`) is the
identity on a nodup-keyed field list. -/
theorem map_setKey_id (fields : List (String × JValue)) (k : String) (w : JValue)
    (hnd : (fields.map Prod.fst).Nodup)
    (hf : fields.find? (fun p => p.1 == k) = some (k, w)) :
    fields.map (fun p => if p.1 == k then (k, w) else p) = fields := by
  induction fields with
  | nil => simp at hf
  | cons hd rest ih =>
    obtain ⟨hhdnotin, hndrest⟩ := nodup_keys_cons hd rest hnd
    by_cases hk : hd.1 = k
    · have h1 : (hd.1 == k) = true := by simp [hk]
      have hhd : hd = (k, w) := by
        have h2 := hf
        rw [List.find?_cons, h1] at h2
        exact Option.some_inj.mp h2
      have hnotin : k ∉ rest.map Prod.fst := by rwa [hk] at hhdnotin
      rw [List.map_cons, if_pos (by simp [h1]), map_setKey_not_mem rest k w hnotin, hhd]
    · have h1 : (hd.1 == k) = false := by simp [hk]
      have hf' : rest.find? (fun p => p.1 == k) = some (k, w) := by
        have h2 := hf
        rwa [List.find?_cons, h1] at h2
      rw [List.map_cons, if_neg (by simp [h1]), ih hndrest hf']

/-- Writing back the value just read leaves a nodup-keyed object
unchanged. -/
theorem setAtKey_getField_self (fields : List (String × JValue)) (k : String)
    (hnd : (fields.map Prod.fst).Nodup) (hmem : k ∈ fields.map Prod.fst) :
    setAtKey (.obj fields) k ((JValue.obj fields).getField k) = .obj fields := by
  have hany : fields.any (fun p => p.1 == k) = true := by
    obtain ⟨p, hp, hpk⟩ := List.mem_map.mp hmem
    exact List.any_eq_true.mpr ⟨p, hp, by simp [hpk]⟩
  have hsome : (fields.find? (fun p => p.1 == k)).isSome = true := by
    rw [List.find?_isSome]
    exact List.any_eq_true.mp hany
  obtain ⟨pr, hpr⟩ := Option.isSome_iff_exists.mp hsome
  have hk := List.find?_some hpr
  simp only [] at hk
  have hpr' : fields.find? (fun p => p.1 == k) = some (k, pr.2) := by
    rw [hpr]
    congr 1
    exact Prod.ext (by simpa using hk) rfl
  have hget : (JValue.obj fields).getField k = pr.2 := by
    simp [JValue.getField, hpr]
  rw [hget]
  simp only [setAtKey, hany, if_true]
  rw [map_setKey_id fields k pr.2 hnd hpr']

/-- Unfolding `wfKeys` on an object. -/
theorem wfKeys_obj (fs : List (String × JValue)) :
    wfKeys (.obj fs) = wfKeysFields fs := by simp [wfKeys]

/-- Splitting `wfKeysFields` on a cons. -/
theorem wfKeysFields_cons (k : String) (v : JValue)
    (rest : List (String × JValue)) (h : wfKeysFields ((k, v) :: rest) = true) :
    rest.any (fun p => p.1 == k) = false ∧ wfKeys v = true ∧
      wfKeysFields rest = true := by
  have h2 := h
  simp [wfKeysFields] at h2
  refine ⟨?_, h2.1.2, h2.2⟩
  rw [List.any_eq_false]
  intro p hp
  obtain ⟨a, b⟩ := p
  simpa using h2.1.1 a b hp

/-- Well-formed field lists have pairwise-distinct keys. -/
theorem wfKeysFields_nodup (fs : List (String × JValue))
    (h : wfKeysFields fs = true) : (fs.map Prod.fst).Nodup := by
  induction fs with
  | nil => simp
  | cons hd rest ih =>
    obtain ⟨k, v⟩ := hd
    obtain ⟨h1, _, h3⟩ := wfKeysFields_cons k v rest h
    rw [List.map_cons, List.nodup_cons]
    refine ⟨?_, ih h3⟩
    intro hc
    obtain ⟨p, hp, hpk⟩ := List.mem_map.mp hc
    have : rest.any (fun q => q.1 == k) = true :=
      List.any_eq_true.mpr ⟨p, hp, by simp [hpk]⟩
    rw [h1] at this
    cases this

/-- Every value in a well-formed field list is well-formed. -/
theorem wfKeysFields_value (fs : List (String × JValue))
    (h : wfKeysFields fs = true) : ∀ p ∈ fs, wfKeys p.2 = true := by
  induction fs with
  | nil => intro p hp; cases hp
  | cons hd rest ih =>
    obtain ⟨k, v⟩ := hd
    obtain ⟨_, h2, h3⟩ := wfKeysFields_cons k v rest h
    intro p hp
    rcases List.mem_cons.mp hp with hp | hp
    · rw [hp]; exact h2
    · exact ih h3 p hp

/-- Reading a field of a well-formed value yields a well-formed value. -/
theorem wfKeys_getField (v : JValue) (k : String) (h : wfKeys v = true) :
    wfKeys (v.getField k) = true := by
  cases v with
  | obj fs =>
    rw [wfKeys_obj] at h
    simp only [JValue.getField]
    cases hf : fs.find? (fun p => p.1 == k) with
    | none => simp [wfKeys]
    | some pr => exact wfKeysFields_value fs h pr (List.mem_of_find?_eq_some hf)
  | undefined => simp [JValue.getField, wfKeys]
  | null => simp [JValue.getField, wfKeys]
  | bool b => simp [JValue.getField, wfKeys]
  | num n => simp [JValue.getField, wfKeys]
  | str s => simp [JValue.getField, wfKeys]
  | arr xs => simp [JValue.getField, wfKeys]

/-- The field-list search returns the head of the pre-order enumeration
of array paths. -/
theorem findAIF_head (fs : List (String × JValue)) :
    findArrayInFields fs = (arrayPathsFields fs).head? := by
  cases fs with
  | nil => simp [findArrayInFields, arrayPathsFields]
  | cons hd rest =>
    obtain ⟨k, v⟩ := hd
    cases v with
    | arr xs => simp [findArrayInFields, arrayPathsFields]
    | obj fs' =>
      have h1 := findAIF_head fs'
      have h2 := findAIF_head rest
      rw [show findArrayInFields ((k, .obj fs') :: rest) =
          (match findArrayInFields fs' with
            | some path => some (k :: path)
            | none => findArrayInFields rest) by simp [findArrayInFields]]
      rw [show arrayPathsFields ((k, .obj fs') :: rest) =
          (arrayPathsFields fs').map (k :: ·) ++ arrayPathsFields rest by
        simp [arrayPathsFields]]
      rw [h1, h2]
      cases arrayPathsFields fs' with
      | nil => simp
      | cons a t => simp
    | undefined => have h2 := findAIF_head rest; simp [findArrayInFields, arrayPathsFields, h2]
    | null => have h2 := findAIF_head rest; simp [findArrayInFields, arrayPathsFields, h2]
    | bool b => have h2 := findAIF_head rest; simp [findArrayInFields, arrayPathsFields, h2]
    | num n => have h2 := findAIF_head rest; simp [findArrayInFields, arrayPathsFields, h2]
    | str s => have h2 := findAIF_head rest; simp [findArrayInFields, arrayPathsFields, h2]
termination_by sizeOf fs
decreasing_by all_goals (subst_vars; simp; try omega)

/-- Theorem: `findArrayInObject` returns the first path of the depth-first
pre-order enumeration `arrayPaths`. -/
theorem findAIO_head (v : JValue) : findArrayInObject v = (arrayPaths v).head? := by
  cases v with
  | arr xs => simp [findArrayInObject, arrayPaths]
  | obj fields =>
    rw [show findArrayInObject (.obj fields) = findArrayInFields fields by
      simp [findArrayInObject]]
    rw [show arrayPaths (.obj fields) = arrayPathsFields fields by
      simp [arrayPaths]]
    exact findAIF_head fields
  | undefined => simp [findArrayInObject, arrayPaths]
  | null => simp [findArrayInObject, arrayPaths]
  | bool b => simp [findArrayInObject, arrayPaths]
  | num n => simp [findArrayInObject, arrayPaths]
  | str s => simp [findArrayInObject, arrayPaths]

/-- Reading the head key of an object. -/
theorem getField_cons_self (k : String) (v : JValue)
    (rest : List (String × JValue)) :
    (JValue.obj ((k, v) :: rest)).getField k = v := by
  simp [JValue.getField, List.find?_cons]

/-- Reading a non-head key skips the head binding. -/
theorem getField_cons_ne (k k₁ : String) (v : JValue)
    (rest : List (String × JValue)) (hne : k₁ ≠ k) :
    (JValue.obj ((k, v) :: rest)).getField k₁ = (JValue.obj rest).getField k₁ := by
  have h1 : (k == k₁) = false := by simpa using Ne.symm hne
  simp [JValue.getField, List.find?_cons, h1]

/-- A path discovered inside a field list is never empty. -/
theorem findAIF_ne_nil (fs : List (String × JValue)) (p : List String)
    (h : findArrayInFields fs = some p) : p ≠ [] := by
  induction fs generalizing p with
  | nil => simp [findArrayInFields] at h
  | cons hd rest ih =>
    obtain ⟨k, v⟩ := hd
    cases v with
    | arr xs =>
      rw [show findArrayInFields ((k, .arr xs) :: rest) = some [k] by
        simp [findArrayInFields]] at h
      cases h
      simp
    | obj fs' =>
      rw [show findArrayInFields ((k, .obj fs') :: rest) =
          (match findArrayInFields fs' with
            | some path => some (k :: path)
            | none => findArrayInFields rest) by simp [findArrayInFields]] at h
      cases hf : findArrayInFields fs' with
      | some path => rw [hf] at h; cases h; simp
      | none => rw [hf] at h; exact ih p h
    | undefined =>
      rw [show findArrayInFields ((k, .undefined) :: rest) = findArrayInFields rest by
        simp [findArrayInFields]] at h
      exact ih p h
    | null =>
      rw [show findArrayInFields ((k, .null) :: rest) = findArrayInFields rest by
        simp [findArrayInFields]] at h
      exact ih p h
    | bool b =>
      rw [show findArrayInFields ((k, .bool b) :: rest) = findArrayInFields rest by
        simp [findArrayInFields]] at h
      exact ih p h
    | num n =>
      rw [show findArrayInFields ((k, .num n) :: rest) = findArrayInFields rest by
        simp [findArrayInFields]] at h
      exact ih p h
    | str s =>
      rw [show findArrayInFields ((k, .str s) :: rest) = findArrayInFields rest by
        simp [findArrayInFields]] at h
      exact ih p h

/-- The search stops at an array-valued head binding. -/
theorem findAIF_cons_arr (k : String) (xs : List JValue)
    (rest : List (String × JValue)) :
    findArrayInFields ((k, .arr xs) :: rest) = some [k] := by
  simp [findArrayInFields]

/-- The search recurses into an object-valued head binding before the
siblings. -/
theorem findAIF_cons_obj (k : String) (fs' : List (String × JValue))
    (rest : List (String × JValue)) :
    findArrayInFields ((k, .obj fs') :: rest) =
      (match findArrayInFields fs' with
        | some path => some (k :: path)
        | none => findArrayInFields rest) := by
  simp [findArrayInFields]

/-- The search skips a scalar head binding. -/
theorem findAIF_cons_skip (k : String) (v : JValue)
    (rest : List (String × JValue))
    (ha : ∀ xs, v ≠ .arr xs) (ho : ∀ fs, v ≠ .obj fs) :
    findArrayInFields ((k, v) :: rest) = findArrayInFields rest := by
  cases v with
  | arr xs => exact absurd rfl (ha xs)
  | obj fs => exact absurd rfl (ho fs)
  | undefined => simp [findArrayInFields]
  | null => simp [findArrayInFields]
  | bool b => simp [findArrayInFields]
  | num n => simp [findArrayInFields]
  | str s => simp [findArrayInFields]

/-- The first key of a discovered path is a key of the field list. -/
theorem findAIF_headkey (fs : List (String × JValue)) (k₁ : String)
    (p₁ : List String) (h : findArrayInFields fs = some (k₁ :: p₁)) :
    k₁ ∈ fs.map Prod.fst := by
  induction fs generalizing k₁ p₁ with
  | nil => simp [findArrayInFields] at h
  | cons hd rest ih =>
    obtain ⟨k, v⟩ := hd
    cases v with
    | arr xs =>
      rw [findAIF_cons_arr] at h
      cases h
      simp
    | obj fs' =>
      rw [findAIF_cons_obj] at h
      cases hf : findArrayInFields fs' with
      | some path =>
        rw [hf] at h
        cases h
        simp
      | none =>
        rw [hf] at h
        exact List.mem_cons_of_mem _ (ih k₁ p₁ h)
    | undefined =>
      rw [findAIF_cons_skip k _ rest (by intro xs hc; cases hc) (by intro fs hc; cases hc)] at h
      exact List.mem_cons_of_mem _ (ih k₁ p₁ h)
    | null =>
      rw [findAIF_cons_skip k _ rest (by intro xs hc; cases hc) (by intro fs hc; cases hc)] at h
      exact List.mem_cons_of_mem _ (ih k₁ p₁ h)
    | bool b =>
      rw [findAIF_cons_skip k _ rest (by intro xs hc; cases hc) (by intro fs hc; cases hc)] at h
      exact List.mem_cons_of_mem _ (ih k₁ p₁ h)
    | num n =>
      rw [findAIF_cons_skip k _ rest (by intro xs hc; cases hc) (by intro fs hc; cases hc)] at h
      exact List.mem_cons_of_mem _ (ih k₁ p₁ h)
    | str s =>
      rw [findAIF_cons_skip k _ rest (by intro xs hc; cases hc) (by intro fs hc; cases hc)] at h
      exact List.mem_cons_of_mem _ (ih k₁ p₁ h)

/-- Fuel-indexed form: the value at a discovered path inside a
well-formed field list is an array. -/
theorem findAIF_getValueAt_aux (n : Nat) :
    ∀ (fs : List (String × JValue)), sizeOf fs ≤ n →
    ∀ (p : List String), wfKeysFields fs = true → findArrayInFields fs = some p →
    ∃ xs, getValueAt (JValue.obj fs) p = .arr xs := by
  induction n with
  | zero =>
    intro fs hsz
    exfalso
    cases fs <;> simp at hsz
  | succ nf ih =>
  intro fs hsz p hwf h
  cases fs with
  | nil => simp [findArrayInFields] at h
  | cons hd rest =>
    obtain ⟨k, v⟩ := hd
    obtain ⟨hany, hwfv, hwfrest⟩ := wfKeysFields_cons k v rest hwf
    have hknotin : k ∉ rest.map Prod.fst := by
      intro hc
      obtain ⟨q, hq, hqk⟩ := List.mem_map.mp hc
      have : rest.any (fun p => p.1 == k) = true :=
        List.any_eq_true.mpr ⟨q, hq, by simp [hqk]⟩
      rw [hany] at this
      cases this
    cases v with
    | arr xs =>
      rw [findAIF_cons_arr] at h
      cases h
      exact ⟨xs, by simp [getValueAt, getField_cons_self]⟩
    | obj fs' =>
      rw [findAIF_cons_obj] at h
      cases hf : findArrayInFields fs' with
      | some path =>
        rw [hf] at h
        cases h
        have hsz' : sizeOf fs' ≤ nf := by
          simp at hsz
          omega
        obtain ⟨xs, hxs⟩ := ih fs' hsz' path (by rwa [← wfKeys_obj]) hf
        refine ⟨xs, ?_⟩
        show getValueAt ((JValue.obj ((k, .obj fs') :: rest)).getField k) path = .arr xs
        rw [getField_cons_self]
        exact hxs
      | none =>
        rw [hf] at h
        obtain ⟨k₁, p₁, rfl⟩ := List.exists_cons_of_ne_nil (findAIF_ne_nil rest _ h)
        have hk₁ : k₁ ∈ rest.map Prod.fst := findAIF_headkey rest k₁ p₁ h
        have hne : k₁ ≠ k := fun hc => hknotin (hc ▸ hk₁)
        have hszr : sizeOf rest ≤ nf := by
          simp at hsz
          omega
        obtain ⟨xs, hxs⟩ := ih rest hszr (k₁ :: p₁) hwfrest h
        refine ⟨xs, ?_⟩
        show getValueAt ((JValue.obj ((k, .obj fs') :: rest)).getField k₁) p₁ = .arr xs
        rw [getField_cons_ne k k₁ _ rest hne]
        exact hxs
    | undefined =>
      rw [findAIF_cons_skip k _ rest (by intro xs hc; cases hc) (by intro fs hc; cases hc)] at h
      obtain ⟨k₁, p₁, rfl⟩ := List.exists_cons_of_ne_nil (findAIF_ne_nil rest _ h)
      have hk₁ : k₁ ∈ rest.map Prod.fst := findAIF_headkey rest k₁ p₁ h
      have hne : k₁ ≠ k := fun hc => hknotin (hc ▸ hk₁)
      have hszr : sizeOf rest ≤ nf := by
        simp at hsz
        omega
      obtain ⟨xs, hxs⟩ := ih rest hszr (k₁ :: p₁) hwfrest h
      exact ⟨xs, by
        show getValueAt ((JValue.obj ((k, .undefined) :: rest)).getField k₁) p₁ = .arr xs
        rw [getField_cons_ne k k₁ _ rest hne]
        exact hxs⟩
    | null =>
      rw [findAIF_cons_skip k _ rest (by intro xs hc; cases hc) (by intro fs hc; cases hc)] at h
      obtain ⟨k₁, p₁, rfl⟩ := List.exists_cons_of_ne_nil (findAIF_ne_nil rest _ h)
      have hk₁ : k₁ ∈ rest.map Prod.fst := findAIF_headkey rest k₁ p₁ h
      have hne : k₁ ≠ k := fun hc => hknotin (hc ▸ hk₁)
      have hszr : sizeOf rest ≤ nf := by
        simp at hsz
        omega
      obtain ⟨xs, hxs⟩ := ih rest hszr (k₁ :: p₁) hwfrest h
      exact ⟨xs, by
        show getValueAt ((JValue.obj ((k, .null) :: rest)).getField k₁) p₁ = .arr xs
        rw [getField_cons_ne k k₁ _ rest hne]
        exact hxs⟩
    | bool b =>
      rw [findAIF_cons_skip k _ rest (by intro xs hc; cases hc) (by intro fs hc; cases hc)] at h
      obtain ⟨k₁, p₁, rfl⟩ := List.exists_cons_of_ne_nil (findAIF_ne_nil rest _ h)
      have hk₁ : k₁ ∈ rest.map Prod.fst := findAIF_headkey rest k₁ p₁ h
      have hne : k₁ ≠ k := fun hc => hknotin (hc ▸ hk₁)
      have hszr : sizeOf rest ≤ nf := by
        simp at hsz
        omega
      obtain ⟨xs, hxs⟩ := ih rest hszr (k₁ :: p₁) hwfrest h
      exact ⟨xs, by
        show getValueAt ((JValue.obj ((k, .bool b) :: rest)).getField k₁) p₁ = .arr xs
        rw [getField_cons_ne k k₁ _ rest hne]
        exact hxs⟩
    | num n =>
      rw [findAIF_cons_skip k _ rest (by intro xs hc; cases hc) (by intro fs hc; cases hc)] at h
      obtain ⟨k₁, p₁, rfl⟩ := List.exists_cons_of_ne_nil (findAIF_ne_nil rest _ h)
      have hk₁ : k₁ ∈ rest.map Prod.fst := findAIF_headkey rest k₁ p₁ h
      have hne : k₁ ≠ k := fun hc => hknotin (hc ▸ hk₁)
      have hszr : sizeOf rest ≤ nf := by
        simp at hsz
        omega
      obtain ⟨xs, hxs⟩ := ih rest hszr (k₁ :: p₁) hwfrest h
      exact ⟨xs, by
        show getValueAt ((JValue.obj ((k, .num n) :: rest)).getField k₁) p₁ = .arr xs
        rw [getField_cons_ne k k₁ _ rest hne]
        exact hxs⟩
    | str s =>
      rw [findAIF_cons_skip k _ rest (by intro xs hc; cases hc) (by intro fs hc; cases hc)] at h
      obtain ⟨k₁, p₁, rfl⟩ := List.exists_cons_of_ne_nil (findAIF_ne_nil rest _ h)
      have hk₁ : k₁ ∈ rest.map Prod.fst := findAIF_headkey rest k₁ p₁ h
      have hne : k₁ ≠ k := fun hc => hknotin (hc ▸ hk₁)
      have hszr : sizeOf rest ≤ nf := by
        simp at hsz
        omega
      obtain ⟨xs, hxs⟩ := ih rest hszr (k₁ :: p₁) hwfrest h
      exact ⟨xs, by
        show getValueAt ((JValue.obj ((k, .str s) :: rest)).getField k₁) p₁ = .arr xs
        rw [getField_cons_ne k k₁ _ rest hne]
        exact hxs⟩

/-- The value at a path discovered inside a well-formed field list is an
array. -/
theorem findAIF_getValueAt (fs : List (String × JValue)) (p : List String)
    (hwf : wfKeysFields fs = true) (h : findArrayInFields fs = some p) :
    ∃ xs, getValueAt (JValue.obj fs) p = .arr xs :=
  findAIF_getValueAt_aux (sizeOf fs) fs le_rfl p hwf h

/-- The value at a path discovered by `findArrayInObject` in a
well-formed value is an array. -/
theorem findAIO_getValueAt (v : JValue) (p : List String)
    (hwf : wfKeys v = true) (h : findArrayInObject v = some p) :
    ∃ xs, getValueAt v p = .arr xs := by
  cases v with
  | arr xs =>
    rw [show findArrayInObject (.arr xs) = some [] by simp [findArrayInObject]] at h
    cases h
    exact ⟨xs, rfl⟩
  | obj fields =>
    rw [show findArrayInObject (.obj fields) = findArrayInFields fields by
      simp [findArrayInObject]] at h
    rw [wfKeys_obj] at hwf
    exact findAIF_getValueAt fields p hwf h
  | undefined => simp [findArrayInObject] at h
  | null => simp [findArrayInObject] at h
  | bool b => simp [findArrayInObject] at h
  | num n => simp [findArrayInObject] at h
  | str s => simp [findArrayInObject] at h


/-- A keyed write that fixes the tail of a field list fixes the whole
list when it does not touch the head key. -/
theorem setAtKey_cons_preserve (k : String) (v : JValue)
    (rest : List (String × JValue)) (k₁ : String) (X : JValue)
    (hne : k₁ ≠ k) (hmem : k₁ ∈ rest.map Prod.fst)
    (hrec : setAtKey (.obj rest) k₁ X = .obj rest) :
    setAtKey (.obj ((k, v) :: rest)) k₁ X = .obj ((k, v) :: rest) := by
  have hanyr : rest.any (fun p => p.1 == k₁) = true := by
    obtain ⟨q, hq, hqk⟩ := List.mem_map.mp hmem
    exact List.any_eq_true.mpr ⟨q, hq, by simp [hqk]⟩
  have hanyc : ((k, v) :: rest).any (fun p => p.1 == k₁) = true := by
    rw [List.any_cons, hanyr, Bool.or_true]
  simp only [setAtKey, hanyr, if_true] at hrec
  have hmap : rest.map (fun p => if p.1 == k₁ then (k₁, X) else p) = rest := by
    simpa using hrec
  simp only [setAtKey, hanyc, if_true, List.map_cons]
  rw [hmap, if_neg (by simp [Ne.symm hne])]

/-- Fuel-indexed form: writing back the value read along a discovered
path leaves a well-formed field list unchanged. -/
theorem setRT_fields_aux (n : Nat) :
    ∀ (fs : List (String × JValue)), sizeOf fs ≤ n →
    ∀ (p : List String), wfKeysFields fs = true → findArrayInFields fs = some p →
    setValueByPath (JValue.obj fs) p (getValueAt (JValue.obj fs) p) = .obj fs := by
  induction n with
  | zero =>
    intro fs hsz
    exfalso
    cases fs <;> simp at hsz
  | succ nf ih =>
  intro fs hsz p hwf h
  cases fs with
  | nil => simp [findArrayInFields] at h
  | cons hd rest =>
    obtain ⟨k, v⟩ := hd
    obtain ⟨hany, hwfv, hwfrest⟩ := wfKeysFields_cons k v rest hwf
    have hknotin : k ∉ rest.map Prod.fst := by
      intro hc
      obtain ⟨q, hq, hqk⟩ := List.mem_map.mp hc
      have : rest.any (fun p => p.1 == k) = true :=
        List.any_eq_true.mpr ⟨q, hq, by simp [hqk]⟩
      rw [hany] at this
      cases this
    have hnodup : (((k, v) :: rest).map Prod.fst).Nodup := wfKeysFields_nodup _ hwf
    cases v with
    | arr xs =>
      rw [findAIF_cons_arr] at h
      cases h
      show setAtKey (JValue.obj ((k, .arr xs) :: rest)) k
        ((JValue.obj ((k, .arr xs) :: rest)).getField k) = _
      exact setAtKey_getField_self _ k hnodup (by simp)
    | obj fs' =>
      rw [findAIF_cons_obj] at h
      cases hf : findArrayInFields fs' with
      | some path =>
        rw [hf] at h
        cases h
        obtain ⟨t₀, ts, rfl⟩ :=
          List.exists_cons_of_ne_nil (findAIF_ne_nil fs' _ hf)
        have hsz' : sizeOf fs' ≤ nf := by
          simp at hsz
          omega
        have hrec := ih fs' hsz' (t₀ :: ts) (by rwa [wfKeys_obj] at hwfv) hf
        show setAtKey (JValue.obj ((k, .obj fs') :: rest)) k
          (setValueByPath ((JValue.obj ((k, .obj fs') :: rest)).getField k) (t₀ :: ts)
            (getValueAt ((JValue.obj ((k, .obj fs') :: rest)).getField k) (t₀ :: ts))) = _
        rw [getField_cons_self, hrec]
        have hself := setAtKey_getField_self ((k, JValue.obj fs') :: rest) k hnodup (by simp)
        rwa [getField_cons_self] at hself
      | none =>
        rw [hf] at h
        obtain ⟨k₁, p₁, rfl⟩ := List.exists_cons_of_ne_nil (findAIF_ne_nil rest _ h)
        have hk₁ : k₁ ∈ rest.map Prod.fst := findAIF_headkey rest k₁ p₁ h
        have hne : k₁ ≠ k := fun hc => hknotin (hc ▸ hk₁)
        have hszr : sizeOf rest ≤ nf := by
          simp at hsz
          omega
        have hrec := ih rest hszr (k₁ :: p₁) hwfrest h
        cases p₁ with
        | nil =>
          show setAtKey (JValue.obj ((k, .obj fs') :: rest)) k₁
            ((JValue.obj ((k, .obj fs') :: rest)).getField k₁) = _
          rw [getField_cons_ne k k₁ _ rest hne]
          exact setAtKey_cons_preserve k _ rest k₁ _ hne hk₁ hrec
        | cons t₁ ts₁ =>
          show setAtKey (JValue.obj ((k, .obj fs') :: rest)) k₁
            (setValueByPath ((JValue.obj ((k, .obj fs') :: rest)).getField k₁) (t₁ :: ts₁)
              (getValueAt ((JValue.obj ((k, .obj fs') :: rest)).getField k₁) (t₁ :: ts₁))) = _
          rw [getField_cons_ne k k₁ _ rest hne]
          exact setAtKey_cons_preserve k _ rest k₁ _ hne hk₁ hrec
    | undefined =>
      rw [findAIF_cons_skip k _ rest (by intro xs hc; cases hc) (by intro fs hc; cases hc)] at h
      obtain ⟨k₁, p₁, rfl⟩ := List.exists_cons_of_ne_nil (findAIF_ne_nil rest _ h)
      have hk₁ : k₁ ∈ rest.map Prod.fst := findAIF_headkey rest k₁ p₁ h
      have hne : k₁ ≠ k := fun hc => hknotin (hc ▸ hk₁)
      have hszr : sizeOf rest ≤ nf := by
        simp at hsz
        omega
      have hrec := ih rest hszr (k₁ :: p₁) hwfrest h
      cases p₁ with
      | nil =>
        show setAtKey (JValue.obj ((k, .undefined) :: rest)) k₁
          ((JValue.obj ((k, .undefined) :: rest)).getField k₁) = _
        rw [getField_cons_ne k k₁ _ rest hne]
        exact setAtKey_cons_preserve k _ rest k₁ _ hne hk₁ hrec
      | cons t₁ ts₁ =>
        show setAtKey (JValue.obj ((k, .undefined) :: rest)) k₁
          (setValueByPath ((JValue.obj ((k, .undefined) :: rest)).getField k₁) (t₁ :: ts₁)
            (getValueAt ((JValue.obj ((k, .undefined) :: rest)).getField k₁) (t₁ :: ts₁))) = _
        rw [getField_cons_ne k k₁ _ rest hne]
        exact setAtKey_cons_preserve k _ rest k₁ _ hne hk₁ hrec
    | null =>
      rw [findAIF_cons_skip k _ rest (by intro xs hc; cases hc) (by intro fs hc; cases hc)] at h
      obtain ⟨k₁, p₁, rfl⟩ := List.exists_cons_of_ne_nil (findAIF_ne_nil rest _ h)
      have hk₁ : k₁ ∈ rest.map Prod.fst := findAIF_headkey rest k₁ p₁ h
      have hne : k₁ ≠ k := fun hc => hknotin (hc ▸ hk₁)
      have hszr : sizeOf rest ≤ nf := by
        simp at hsz
        omega
      have hrec := ih rest hszr (k₁ :: p₁) hwfrest h
      cases p₁ with
      | nil =>
        show setAtKey (JValue.obj ((k, .null) :: rest)) k₁
          ((JValue.obj ((k, .null) :: rest)).getField k₁) = _
        rw [getField_cons_ne k k₁ _ rest hne]
        exact setAtKey_cons_preserve k _ rest k₁ _ hne hk₁ hrec
      | cons t₁ ts₁ =>
        show setAtKey (JValue.obj ((k, .null) :: rest)) k₁
          (setValueByPath ((JValue.obj ((k, .null) :: rest)).getField k₁) (t₁ :: ts₁)
            (getValueAt ((JValue.obj ((k, .null) :: rest)).getField k₁) (t₁ :: ts₁))) = _
        rw [getField_cons_ne k k₁ _ rest hne]
        exact setAtKey_cons_preserve k _ rest k₁ _ hne hk₁ hrec
    | bool b =>
      rw [findAIF_cons_skip k _ rest (by intro xs hc; cases hc) (by intro fs hc; cases hc)] at h
      obtain ⟨k₁, p₁, rfl⟩ := List.exists_cons_of_ne_nil (findAIF_ne_nil rest _ h)
      have hk₁ : k₁ ∈ rest.map Prod.fst := findAIF_headkey rest k₁ p₁ h
      have hne : k₁ ≠ k := fun hc => hknotin (hc ▸ hk₁)
      have hszr : sizeOf rest ≤ nf := by
        simp at hsz
        omega
      have hrec := ih rest hszr (k₁ :: p₁) hwfrest h
      cases p₁ with
      | nil =>
        show setAtKey (JValue.obj ((k, .bool b) :: rest)) k₁
          ((JValue.obj ((k, .bool b) :: rest)).getField k₁) = _
        rw [getField_cons_ne k k₁ _ rest hne]
        exact setAtKey_cons_preserve k _ rest k₁ _ hne hk₁ hrec
      | cons t₁ ts₁ =>
        show setAtKey (JValue.obj ((k, .bool b) :: rest)) k₁
          (setValueByPath ((JValue.obj ((k, .bool b) :: rest)).getField k₁) (t₁ :: ts₁)
            (getValueAt ((JValue.obj ((k, .bool b) :: rest)).getField k₁) (t₁ :: ts₁))) = _
        rw [getField_cons_ne k k₁ _ rest hne]
        exact setAtKey_cons_preserve k _ rest k₁ _ hne hk₁ hrec
    | num m =>
      rw [findAIF_cons_skip k _ rest (by intro xs hc; cases hc) (by intro fs hc; cases hc)] at h
      obtain ⟨k₁, p₁, rfl⟩ := List.exists_cons_of_ne_nil (findAIF_ne_nil rest _ h)
      have hk₁ : k₁ ∈ rest.map Prod.fst := findAIF_headkey rest k₁ p₁ h
      have hne : k₁ ≠ k := fun hc => hknotin (hc ▸ hk₁)
      have hszr : sizeOf rest ≤ nf := by
        simp at hsz
        omega
      have hrec := ih rest hszr (k₁ :: p₁) hwfrest h
      cases p₁ with
      | nil =>
        show setAtKey (JValue.obj ((k, .num m) :: rest)) k₁
          ((JValue.obj ((k, .num m) :: rest)).getField k₁) = _
        rw [getField_cons_ne k k₁ _ rest hne]
        exact setAtKey_cons_preserve k _ rest k₁ _ hne hk₁ hrec
      | cons t₁ ts₁ =>
        show setAtKey (JValue.obj ((k, .num m) :: rest)) k₁
          (setValueByPath ((JValue.obj ((k, .num m) :: rest)).getField k₁) (t₁ :: ts₁)
            (getValueAt ((JValue.obj ((k, .num m) :: rest)).getField k₁) (t₁ :: ts₁))) = _
        rw [getField_cons_ne k k₁ _ rest hne]
        exact setAtKey_cons_preserve k _ rest k₁ _ hne hk₁ hrec
    | str s =>
      rw [findAIF_cons_skip k _ rest (by intro xs hc; cases hc) (by intro fs hc; cases hc)] at h
      obtain ⟨k₁, p₁, rfl⟩ := List.exists_cons_of_ne_nil (findAIF_ne_nil rest _ h)
      have hk₁ : k₁ ∈ rest.map Prod.fst := findAIF_headkey rest k₁ p₁ h
      have hne : k₁ ≠ k := fun hc => hknotin (hc ▸ hk₁)
      have hszr : sizeOf rest ≤ nf := by
        simp at hsz
        omega
      have hrec := ih rest hszr (k₁ :: p₁) hwfrest h
      cases p₁ with
      | nil =>
        show setAtKey (JValue.obj ((k, .str s) :: rest)) k₁
          ((JValue.obj ((k, .str s) :: rest)).getField k₁) = _
        rw [getField_cons_ne k k₁ _ rest hne]
        exact setAtKey_cons_preserve k _ rest k₁ _ hne hk₁ hrec
      | cons t₁ ts₁ =>
        show setAtKey (JValue.obj ((k, .str s) :: rest)) k₁
          (setValueByPath ((JValue.obj ((k, .str s) :: rest)).getField k₁) (t₁ :: ts₁)
            (getValueAt ((JValue.obj ((k, .str s) :: rest)).getField k₁) (t₁ :: ts₁))) = _
        rw [getField_cons_ne k k₁ _ rest hne]
        exact setAtKey_cons_preserve k _ rest k₁ _ hne hk₁ hrec

/-- Writing back the value read along a discovered path leaves a
well-formed value unchanged. -/
theorem setRT (v : JValue) (p : List String) (hwf : wfKeys v = true)
    (h : findArrayInObject v = some p) :
    setValueByPath v p (getValueAt v p) = v := by
  cases v with
  | arr xs =>
    rw [show findArrayInObject (.arr xs) = some [] by simp [findArrayInObject]] at h
    cases h
    rfl
  | obj fields =>
    rw [show findArrayInObject (.obj fields) = findArrayInFields fields by
      simp [findArrayInObject]] at h
    rw [wfKeys_obj] at hwf
    exact setRT_fields_aux (sizeOf fields) fields le_rfl p hwf h
  | undefined => simp [findArrayInObject] at h
  | null => simp [findArrayInObject] at h
  | bool b => simp [findArrayInObject] at h
  | num n => simp [findArrayInObject] at h
  | str s => simp [findArrayInObject] at h

/-- Frame property of path writes: a read along a path that branches off
the written path before its end is unaffected. -/
theorem getValueAt_setValueByPath_branch :
    ∀ (a : List String) (v : JValue) (k k' : String) (p' q' : List String)
      (u : JValue), k ≠ k' →
    getValueAt (setValueByPath v (a ++ k :: p') u) (a ++ k' :: q') =
      getValueAt v (a ++ k' :: q') := by
  intro a
  induction a with
  | nil =>
    intro v k k' p' q' u hne
    cases p' with
    | nil =>
      show getValueAt ((setAtKey v k u).getField k') q' =
        getValueAt (v.getField k') q'
      rw [getField_setAtKey_ne v k k' u (Ne.symm hne)]
    | cons t ts =>
      show getValueAt
          ((setAtKey v k (setValueByPath (v.getField k) (t :: ts) u)).getField k') q' =
        getValueAt (v.getField k') q'
      rw [getField_setAtKey_ne v k k' _ (Ne.symm hne)]
  | cons x a' ih =>
    intro v k k' p' q' u hne
    rw [List.cons_append, List.cons_append]
    cases ht : a' ++ k :: p' with
    | nil => simp at ht
    | cons t₀ ts =>
      cases v with
      | obj fs =>
        show getValueAt
            ((setAtKey (JValue.obj fs) x
              (setValueByPath ((JValue.obj fs).getField x) (t₀ :: ts) u)).getField x)
            (a' ++ k' :: q') =
          getValueAt ((JValue.obj fs).getField x) (a' ++ k' :: q')
        rw [getField_setAtKey_self fs x _]
        rw [← ht]
        exact ih ((JValue.obj fs).getField x) k k' p' q' u hne
      | undefined =>
        show getValueAt
            ((setAtKey .undefined x (setValueByPath (JValue.undefined.getField x) (t₀ :: ts) u)).getField x)
            (a' ++ k' :: q') =
          getValueAt (JValue.undefined.getField x) (a' ++ k' :: q')
        rw [setAtKey_nonobj _ x _ (by intro fs hc; cases hc)]
      | null =>
        show getValueAt
            ((setAtKey .null x (setValueByPath (JValue.null.getField x) (t₀ :: ts) u)).getField x)
            (a' ++ k' :: q') =
          getValueAt (JValue.null.getField x) (a' ++ k' :: q')
        rw [setAtKey_nonobj _ x _ (by intro fs hc; cases hc)]
      | bool b =>
        show getValueAt
            ((setAtKey (.bool b) x (setValueByPath ((JValue.bool b).getField x) (t₀ :: ts) u)).getField x)
            (a' ++ k' :: q') =
          getValueAt ((JValue.bool b).getField x) (a' ++ k' :: q')
        rw [setAtKey_nonobj _ x _ (by intro fs hc; cases hc)]
      | num m =>
        show getValueAt
            ((setAtKey (.num m) x (setValueByPath ((JValue.num m).getField x) (t₀ :: ts) u)).getField x)
            (a' ++ k' :: q') =
          getValueAt ((JValue.num m).getField x) (a' ++ k' :: q')
        rw [setAtKey_nonobj _ x _ (by intro fs hc; cases hc)]
      | str s =>
        show getValueAt
            ((setAtKey (.str s) x (setValueByPath ((JValue.str s).getField x) (t₀ :: ts) u)).getField x)
            (a' ++ k' :: q') =
          getValueAt ((JValue.str s).getField x) (a' ++ k' :: q')
        rw [setAtKey_nonobj _ x _ (by intro fs hc; cases hc)]
      | arr xs =>
        show getValueAt
            ((setAtKey (.arr xs) x (setValueByPath ((JValue.arr xs).getField x) (t₀ :: ts) u)).getField x)
            (a' ++ k' :: q') =
          getValueAt ((JValue.arr xs).getField x) (a' ++ k' :: q')
        rw [setAtKey_nonobj _ x _ (by intro fs hc; cases hc)]

/-- Whenever `updateCache` writes, the written call targets the recipe's
query and variables with data produced by the `produce` recipe from the
read result. -/
theorem updateCache_write (cfg : OfflineConfig) (client : Client) (data : JValue)
    (idField : Option String) (uq : UpdateQueryArg)
    (opTy : Option CacheOperationTypes) (mapFn : Option (JValue → JValue))
    (w : WriteCall) (res : JValue)
    (hread : client.read uq.queryOf uq.varsOf = .ok res)
    (hw : updateCache cfg client data idField uq opTy mapFn = some w) :
    ∃ updFn item, w = ⟨uq.queryOf, uq.varsOf,
      produceUpdate (getOperationFieldName uq.queryOf) updFn item res⟩ := by
  by_cases hd : data.truthy = true
  · by_cases hf : (data.getField ((firstKey data).getD "undefined")).truthy = true
    · by_cases hres : res.truthy = true
      · simp only [updateCache, hd, hf, hread, hres, Bool.not_true,
          Bool.false_eq_true, if_false] at hw
        exact ⟨_, _, (Option.some_inj.mp hw).symm⟩
      · rw [Bool.not_eq_true] at hres
        simp [updateCache, hd, hf, hread, hres] at hw
    · rw [Bool.not_eq_true] at hf
      simp [updateCache, hd, hf] at hw
  · rw [Bool.not_eq_true] at hd
    simp [updateCache, hd] at hw

/-- The `produce` recipe changes at most the query-field entry of the
cached result. -/
theorem produceUpdate_frame_top (qf : String) (updFn : JValue → JValue → JValue)
    (item res : JValue) (k : String) (hk : k ≠ qf) :
    (produceUpdate qf updFn item res).getField k = res.getField k := by
  simp only [produceUpdate]
  cases hp : findArrayInObject (res.getField qf) with
  | none => exact getField_setAtKey_ne res qf k _ hk
  | some p =>
    cases p with
    | nil => exact getField_setAtKey_ne res qf k _ hk
    | cons t ts => exact getField_setAtKey_ne res qf k _ hk

/-- Inside the query-field subtree, the `produce` recipe changes nothing
off the discovered path. -/
theorem produceUpdate_frame_path (qf : String) (updFn : JValue → JValue → JValue)
    (item res : JValue) (p : List String)
    (hp : findArrayInObject (res.getField qf) = some p)
    (q : List String) (hbr : branchesBefore p q) :
    getValueAt ((produceUpdate qf updFn item res).getField qf) q =
      getValueAt (res.getField qf) q := by
  obtain ⟨a, k, k', p', q', hpe, hqe, hkk⟩ := hbr
  subst hpe hqe
  cases hc : a ++ k :: p' with
  | nil => simp at hc
  | cons t₀ ts =>
    rw [hc] at hp
    obtain ⟨fs, rfl⟩ : ∃ fs, res = .obj fs := by
      cases res with
      | obj fs => exact ⟨fs, rfl⟩
      | undefined => simp [JValue.getField, findArrayInObject] at hp
      | null => simp [JValue.getField, findArrayInObject] at hp
      | bool b => simp [JValue.getField, findArrayInObject] at hp
      | num m => simp [JValue.getField, findArrayInObject] at hp
      | str s => simp [JValue.getField, findArrayInObject] at hp
      | arr xs => simp [JValue.getField, findArrayInObject] at hp
    have hred : produceUpdate qf updFn item (JValue.obj fs) =
        setAtKey (JValue.obj fs) qf
          (setValueByPath ((JValue.obj fs).getField qf) (t₀ :: ts)
            (updFn (getValueAt ((JValue.obj fs).getField qf) (t₀ :: ts)) item)) := by
      simp only [produceUpdate]
      rw [hp]
      rfl
    rw [hred, getField_setAtKey_self fs qf _, ← hc]
    exact getValueAt_setValueByPath_branch a ((JValue.obj fs).getField qf) k k' p' q' _ hkk

/-- With the identity updater, the `produce` recipe writes back exactly
the cached result (for a well-formed result containing the query
field). -/
theorem produceUpdate_id (qf : String) (item res : JValue)
    (hwf : wfKeys res = true) (hhas : res.hasKey qf = true) :
    produceUpdate qf (fun c _ => c) item res = res := by
  obtain ⟨fs, rfl⟩ : ∃ fs, res = .obj fs := by
    cases res with
    | obj fs => exact ⟨fs, rfl⟩
    | undefined => simp [JValue.hasKey, JValue.ownKeys] at hhas
    | null => simp [JValue.hasKey, JValue.ownKeys] at hhas
    | bool b => simp [JValue.hasKey, JValue.ownKeys] at hhas
    | num m => simp [JValue.hasKey, JValue.ownKeys] at hhas
    | str s => simp [JValue.hasKey, JValue.ownKeys] at hhas
    | arr xs => simp [JValue.hasKey, JValue.ownKeys] at hhas
  have hnodup := wfKeysFields_nodup fs (by rwa [wfKeys_obj] at hwf)
  have hmem : qf ∈ fs.map Prod.fst := by
    simpa [JValue.hasKey, JValue.ownKeys] using hhas
  simp only [produceUpdate]
  cases hp : findArrayInObject ((JValue.obj fs).getField qf) with
  | none =>
    show setAtKey (JValue.obj fs) qf
      (getValueByPath ((JValue.obj fs).getField qf) none) = _
    exact setAtKey_getField_self fs qf hnodup hmem
  | some p =>
    cases p with
    | nil =>
      show setAtKey (JValue.obj fs) qf
        (getValueByPath ((JValue.obj fs).getField qf) (some [])) = _
      exact setAtKey_getField_self fs qf hnodup hmem
    | cons t ts =>
      have hrt := setRT ((JValue.obj fs).getField qf) (t :: ts)
        (wfKeys_getField _ qf hwf) hp
      show setAtKey (JValue.obj fs) qf
        (setValueByPath ((JValue.obj fs).getField qf) (t :: ts)
          (getValueByPath ((JValue.obj fs).getField qf) (some (t :: ts)))) = _
      rw [show getValueByPath ((JValue.obj fs).getField qf) (some (t :: ts)) =
        getValueAt ((JValue.obj fs).getField qf) (t :: ts) from rfl]
      rw [hrt]
      exact setAtKey_getField_self fs qf hnodup hmem


/-- Claim C6: whenever `updateCache` reaches the patch stage and writes,
the written data differs from the `readQuery` result only at the query
field, and within that subtree only along the discovered array path —
every other top-level field and every off-path subtree is equal to the
original (in this value-semantic embedding, mutation of the read result
is unrepresentable, and structural sharing of unaffected subtrees
appears as equality of those subtrees). -/
theorem C6_no_mutation (cfg : OfflineConfig) (client : Client) (data : JValue)
    (idField : Option String) (uq : UpdateQueryArg)
    (opTy : Option CacheOperationTypes) (mapFn : Option (JValue → JValue))
    (w : WriteCall) (res : JValue)
    (hread : client.read uq.queryOf uq.varsOf = .ok res)
    (hw : updateCache cfg client data idField uq opTy mapFn = some w) :
    (∀ k, k ≠ getOperationFieldName uq.queryOf →
      w.data.getField k = res.getField k) ∧
    (∀ p, findArrayInObject (res.getField (getOperationFieldName uq.queryOf)) = some p →
      ∀ q, branchesBefore p q →
        getValueAt (w.data.getField (getOperationFieldName uq.queryOf)) q =
          getValueAt (res.getField (getOperationFieldName uq.queryOf)) q) := by
  obtain ⟨updFn, item, rfl⟩ :=
    updateCache_write cfg client data idField uq opTy mapFn w res hread hw
  exact ⟨fun k hk => produceUpdate_frame_top _ updFn item res k hk,
    fun p hp q hbr => produceUpdate_frame_path _ updFn item res p hp q hbr⟩

/-- Witness for C6 in the nested-path scenario: sibling `meta` and
off-path `total` survive the patch unchanged. -/
theorem C6_witness :
    featuredWrite.data.getField "meta" = featuredResult.getField "meta" ∧
    getValueAt (featuredWrite.data.getField "posts") ["total"] =
      getValueAt (featuredResult.getField "posts") ["total"] := by
  have hw : updateCache offlineConfig featuredClient (.obj [("createPost", newPost)])
      none (.bare postsQueryDoc) none none = some featuredWrite := by
    simp [updateCache, produceUpdate, findArrayInObject, findArrayInFields,
      getValueByPath, getValueAt, setValueByPath, setAtKey, getUpdater,
      resolveIdField, firstKey, getOpTypeFromOperationName, opNameMatches,
      strToLower, strStartsWith, offlineConfig, featuredClient, featuredResult,
      featuredWrite, featuredPatched, postsQueryDoc, samplePosts, post1, post2,
      post3, newPost, JValue.truthy, JValue.getField, UpdateQueryArg.queryOf,
      UpdateQueryArg.varsOf, getOperationFieldName, strictEq, prefixesForAdd,
      prefixesForRemove, prefixesForUpdate]
  have h := C6_no_mutation offlineConfig featuredClient
    (.obj [("createPost", newPost)]) none (.bare postsQueryDoc) none none
    featuredWrite featuredResult rfl hw
  refine ⟨h.1 "meta" (by decide), ?_⟩
  refine h.2 ["featured"] ?_ ["total"] ⟨[], "featured", "total", [], [], rfl, rfl, by decide⟩
  simp [findArrayInObject, findArrayInFields, featuredResult, samplePosts,
    post1, post2, post3, JValue.getField, getOperationFieldName,
    UpdateQueryArg.queryOf, postsQueryDoc]

/-- Claim C8: `findArrayInObject` performs a deterministic depth-first
pre-order traversal in key enumeration order, returning the first array
path of the `arrayPaths` enumeration; an array root yields the
distinguished empty path; it returns `none` exactly when no array is
reachable; a discovered path leads to an array; and on
`{posts: {featured: [...], total: 10}}` it finds `featured`, not a
false match on `total`. -/
theorem C8_findArray (v : JValue) (xs : List JValue) (p : List String)
    (hwf : wfKeys v = true) :
    findArrayInObject v = (arrayPaths v).head? ∧
    findArrayInObject (.arr xs) = some [] ∧
    (findArrayInObject v = none ↔ arrayPaths v = []) ∧
    (findArrayInObject v = some p → ∃ ys, getValueAt v p = .arr ys) ∧
    findArrayInObject
      (.obj [("posts", .obj [("featured", .arr xs), ("total", .num 10)])]) =
      some ["posts", "featured"] ∧
    findArrayInObject (.obj [("post", .obj [("id", .num 1), ("title", .str "t")])]) =
      none := by
  refine ⟨findAIO_head v, by simp [findArrayInObject], ?_,
    fun h => findAIO_getValueAt v p hwf h, ?_, ?_⟩
  · rw [findAIO_head v]
    cases arrayPaths v <;> simp
  · simp [findArrayInObject, findArrayInFields]
  · simp [findArrayInObject, findArrayInFields]

/-- Witness for C8 on the nested `featured` result. -/
theorem C8_witness :
    (∃ ys, getValueAt featuredResult ["posts", "featured"] = .arr ys) ∧
    findArrayInObject featuredResult = some ["posts", "featured"] := by
  have h := C8_findArray featuredResult [] ["posts", "featured"]
    (by simp [wfKeys, wfKeysFields, wfKeysList, featuredResult, samplePosts,
      post1, post2, post3])
  have hp : findArrayInObject featuredResult = some ["posts", "featured"] := by
    simp [findArrayInObject, findArrayInFields, featuredResult, samplePosts]
  exact ⟨h.2.2.2.1 hp, hp⟩

/-- Claim C10: when the payload's operation-field value is truthy, the
cached result is non-empty and well-formed and contains the query field,
no explicit operation type is given, and the operation field name
classifies as AUTO, the resolved updater is the identity and
`updateCache` still calls `writeQuery` once with data equal to the
`readQuery` result — the write-back is not skipped for unclassified
operations. -/
theorem C10_auto_writeback (cfg : OfflineConfig) (client : Client) (data : JValue)
    (idField : Option String) (uq : UpdateQueryArg)
    (mapFn : Option (JValue → JValue)) (res : JValue)
    (hf : (data.getField ((firstKey data).getD "undefined")).truthy = true)
    (hauto : getOpTypeFromOperationName cfg ((firstKey data).getD "") = .AUTO)
    (hread : client.read uq.queryOf uq.varsOf = .ok res)
    (hres : res.truthy = true)
    (hwf : wfKeys res = true)
    (hhas : res.hasKey (getOperationFieldName uq.queryOf) = true) :
    updateCache cfg client data idField uq none mapFn =
      some ⟨uq.queryOf, uq.varsOf, res⟩ := by
  have hd : data.truthy = true := by
    cases data with
    | obj fields => rfl
    | undefined => simp [JValue.getField, JValue.truthy] at hf
    | null => simp [JValue.getField, JValue.truthy] at hf
    | bool b => simp [JValue.getField, JValue.truthy] at hf
    | num m => simp [JValue.getField, JValue.truthy] at hf
    | str s => simp [JValue.getField, JValue.truthy] at hf
    | arr xs => simp [JValue.getField, JValue.truthy] at hf
  simp only [updateCache, Option.getD_none, hd, hf, hauto, hread, hres,
    Bool.not_true, Bool.false_eq_true, if_false, if_true, reduceIte]
  have hupd : getUpdater CacheOperationTypes.AUTO (resolveIdField cfg idField
      (match mapFn with
        | some f => f data
        | none => data.getField ((firstKey data).getD "undefined"))) =
      fun c _ => c := rfl
  rw [hupd, produceUpdate_id _ _ res hwf hhas]

/-- Witness for C10: the unclassifiable payload key `somethingElse`
still triggers a write of the unchanged cached posts. -/
theorem C10_witness :
    updateCache offlineConfig primedClient (.obj [("somethingElse", newPost)])
      none (.bare postsQueryDoc) none none =
      some ⟨postsQueryDoc, [], .obj [("posts", .arr samplePosts)]⟩ :=
  C10_auto_writeback offlineConfig primedClient (.obj [("somethingElse", newPost)])
    none (.bare postsQueryDoc) none (.obj [("posts", .arr samplePosts)])
    rfl (by decide) rfl rfl
    (by simp [wfKeys, wfKeysFields, wfKeysList, samplePosts, post1, post2, post3])
    rfl
